import Mathlib

/-!
Verification of the round-synchronous ring leader-election simulator
(`Practica4_JulietaFlores_JoseZarco_EduardoHernandez.py`).

The per-node state, the per-round transition rule, the round scheduler and the
construction/reporting glue are embedded as executable Lean definitions, and
the specification's claims about them are settled as theorems below.
-/

namespace Election

/-- The five node statuses used by the source (the strings `"asleep"`,
`"participating"`, `"relay"`, `"not_elected"`, `"elected"`). -/
inductive Status where
  | asleep
  | participating
  | relay
  | not_elected
  | elected
  deriving DecidableEq, Repr

/-- The `min` attribute of a node: `None` initially (source line 14),
`float('inf')` on a relay activation (source line 65), or a number. -/
inductive MinVal where
  | unset
  | inf
  | val (m : Nat)
  deriving DecidableEq, Repr

/-- A message `(m, h)`: candidate value and phase. -/
abbrev Msg := Nat × Nat

/-- A waiting entry `(m, h, stored_time)` (source line 85 stores
`(m, 2, self.env.now)`). -/
abbrev WaitEntry := Nat × Nat × Nat

/-- The election-relevant attributes of a `Node` (source lines 8-16). -/
structure NodeSt where
  id : Nat
  status : Status
  min : MinVal
  waiting : List WaitEntry
  is_leader : Bool
  deriving DecidableEq, Repr

/-- `Node.__init__` (source lines 8-16). -/
def NodeSt.start (id : Nat) : NodeSt :=
  ⟨id, .asleep, .unset, [], false⟩

/-- The test `node.min is None or m < node.min` (source line 70); `m` is always
finite, so it is below `float('inf')`. -/
def MinVal.acceptLt (m : Nat) : MinVal → Bool
  | .unset => true
  | .inf => true
  | .val v => decide (m < v)

/-- Activation of an asleep node (source lines 51-65): spontaneous wake-up when
no message arrived, relay otherwise. Returns the node together with the
outgoing set `S` started by line 59. -/
def activate (st : NodeSt) (R : List Msg) : NodeSt × List Msg :=
  if st.status = .asleep then
    if R = [] then
      ({ st with status := .participating, min := .val st.id }, [(st.id, 1)])
    else
      ({ st with status := .relay, min := .inf }, [])
  else (st, [])

/-- One iteration of the comparison loop (source lines 68-91), acting on the
accumulated node state and outgoing list `S`. -/
def compareMsg (now : Nat) (acc : NodeSt × List Msg) (msg : Msg) : NodeSt × List Msg :=
  let st := acc.1
  let S := acc.2
  let m := msg.1
  let h := msg.2
  if MinVal.acceptLt m st.min then
    let past := st.status
    let st1 : NodeSt := { st with status := .not_elected, min := .val m }
    if past = .relay ∧ h = 1 then
      (st1, S ++ [(m, h)])
    else
      ({ st1 with waiting := st1.waiting ++ [(m, 2, now)] }, S)
  else if m = st.id then
    ({ st with status := .elected, is_leader := true }, S)
  else
    acc

/-- The release test `self.env.now - stored_time >= (2**m - 1)` (source line
97), with Python's exact integer arithmetic. -/
def dueNow (now t m : Nat) : Bool :=
  decide ((2 : Int) ^ m - 1 ≤ (now : Int) - (t : Int))

/-- The waiting-queue scan (source lines 93-103): released messages join `S` in
order, the rest are kept in `new_waiting` in order. -/
def release (now : Nat) : List WaitEntry → List Msg × List WaitEntry
  | [] => ([], [])
  | e :: rest =>
    let r := release now rest
    if dueNow now e.2.2 e.1 then ((e.1, e.2.1) :: r.1, r.2)
    else (r.1, e :: r.2)

/-- One node's computation event in a round (source lines 43-103): activation,
comparison loop over `R`, waiting-queue release. Returns the new node state and
the outgoing set `S`. -/
def stepNode (now : Nat) (st : NodeSt) (R : List Msg) : NodeSt × List Msg :=
  let a := activate st R
  let f := R.foldl (compareMsg now) a
  let r := release now f.1.waiting
  ({ f.1 with waiting := r.2 }, f.2 ++ r.1)

/-- Global state of the simulation: the per-node states and the per-node
pending inbound queues (`self.messages`), indexed by ring position. The main
script links position `i`'s right neighbor to position `(i+1) % n` (source
lines 209-211), so position `i`'s left neighbor is position `(i+n-1) % n`. -/
structure Config (n : Nat) where
  node : Fin n → NodeSt
  msgs : Fin n → List Msg

/-- Ring position of `left_neighbor` (set by `Edge`, source lines 19-24). -/
def leftIdx {n : Nat} (i : Fin n) : Fin n :=
  ⟨(i.val + n - 1) % n, Nat.mod_lt _ i.pos⟩

/-- Ring position of `right_neighbor` (set by `Edge`, source lines 19-24). -/
def rightIdx {n : Nat} (i : Fin n) : Fin n :=
  ⟨(i.val + 1) % n, Nat.mod_lt _ i.pos⟩

/-- The body of the per-node loop of `Graph.process_round` (source lines
43-108): step node `i` against the snapshot `cur`, record its new state, and if
it has outgoing messages or a nonempty waiting queue mark activity and extend
its left neighbor's next-round queue with `S`. -/
def roundGo {n : Nat} (now : Nat) (cur : Fin n → List Msg)
    (acc : (Fin n → NodeSt) × (Fin n → List Msg) × Bool) (i : Fin n) :
    (Fin n → NodeSt) × (Fin n → List Msg) × Bool :=
  let r := stepNode now (acc.1 i) (cur i)
  let nodes1 := Function.update acc.1 i r.1
  if r.2 ≠ [] ∨ r.1.waiting ≠ [] then
    (nodes1, Function.update acc.2.1 (leftIdx i) (acc.2.1 (leftIdx i) ++ r.2), true)
  else
    (nodes1, acc.2.1, acc.2.2)

/-- One full round, `Graph.process_round` (source lines 34-110), processing the
nodes in the given order: snapshot and clear the queues, run each node on its
snapshot, deliver each node's activity to its left neighbor, and report whether
any node had activity. -/
def stepRoundOrdered {n : Nat} (now : Nat) (order : List (Fin n)) (c : Config n) :
    Config n × Bool :=
  let res := order.foldl (roundGo now c.msgs) (c.node, fun _ => [], false)
  (⟨res.1, res.2.1⟩, res.2.2)

/-- Order-independent description of one round: every node is stepped against
the snapshot, and position `q`'s next inbound queue is the `S` emitted by its
right neighbor. -/
def stepRound {n : Nat} (now : Nat) (c : Config n) : Config n × Bool :=
  let r := fun i => stepNode now (c.node i) (c.msgs i)
  (⟨fun i => (r i).1, fun q => (r (rightIdx q)).2⟩,
    (List.finRange n).any fun i => decide ((r i).2 ≠ [] ∨ ((r i).1).waiting ≠ []))

/-- The round loop of `round_process` (source lines 112-127): keep running while
the previous round had activity and the round counter is below the cap (the
fuel is `max_rounds - now`). The boolean of the result tells whether the loop
stopped because a round produced no activity rather than by reaching the cap. -/
def runOrdered {n : Nat} (order : List (Fin n)) :
    Nat → Nat → Config n → Config n × Bool
  | 0, _, c => (c, false)
  | fuel + 1, now, c =>
    let r := stepRoundOrdered now order c
    if r.2 then runOrdered order fuel (now + 1) r.1 else (r.1, true)

/-- The round loop driven by the order-independent round description. -/
def runSteps {n : Nat} : Nat → Nat → Config n → Config n × Bool
  | 0, _, c => (c, false)
  | fuel + 1, now, c =>
    let r := stepRound now c
    if r.2 then runSteps fuel (now + 1) r.1 else (r.1, true)

/-- Initial configuration for identifiers `ids`: every node fresh from
`Node.__init__`, every inbound queue empty (source lines 27-33 and 206). -/
def initConfig {n : Nat} (ids : Fin n → Nat) : Config n :=
  ⟨fun i => NodeSt.start (ids i), fun _ => []⟩

/-- The processing order set up by `run_election` (source line 135): nodes whose
id equals the initiator's first, then the others, each part in ring order. -/
def electionOrder {n : Nat} (ids : Fin n → Nat) (initiator : Nat) : List (Fin n) :=
  ((List.finRange n).filter fun i => decide (ids i = initiator)) ++
    ((List.finRange n).filter fun i => !decide (ids i = initiator))

/-- `Graph.run_election` (source lines 129-148): put the initiator first in the
processing order and run rounds from round 0 up to `max_rounds`. -/
def run_election {n : Nat} (ids : Fin n → Nat) (max_rounds : Nat) (initiator : Nat) :
    Config n × Bool :=
  runOrdered (electionOrder ids initiator) max_rounds 0 (initConfig ids)

/-- The state after `k` rounds of the protocol, without the stop test; the
states visited by the scheduler form a prefix of this iteration. -/
def iterRounds {n : Nat} (ids : Fin n → Nat) : Nat → Config n
  | 0 => initConfig ids
  | k + 1 => stepRound k (iterRounds ids k) |>.1

/-- The two outcomes reported at the end of `run_election` (source lines
142-146): a leader announcement naming `leaders[0]`, or "no clear leader". -/
inductive Report where
  | leaderIs (id : Nat)
  | noLeader
  deriving DecidableEq, Repr

/-- `leaders = [node for node in self.nodes if node.is_leader]` (line 142). -/
def leadersOf (nodes : List NodeSt) : List NodeSt :=
  nodes.filter fun nd => nd.is_leader

/-- The final report of `run_election` (source lines 142-146). -/
def electionReport (nodes : List NodeSt) : Report :=
  match leadersOf nodes with
  | [] => .noLeader
  | l :: _ => .leaderIs l.id

/-- The ring as built by the main script from an identifier list (source lines
206-214): one `Node` per identifier, and for each index `i` an
`Edge(nodes[i], nodes[(i+1) % N])`, which sets `nodes[i].right_neighbor` and
`nodes[(i+1) % N].left_neighbor` (source lines 19-24). Neighbors are recorded
as index maps, `none` standing for Python's initial `None`. -/
structure BuiltRing where
  nodes : List NodeSt
  left : Nat → Option Nat
  right : Nat → Option Nat

/-- Run the construction on an arbitrary identifier list. No validation of any
kind is performed by the source. -/
def buildRing (ids : List Nat) : BuiltRing :=
  let n := ids.length
  let step := fun (lr : (Nat → Option Nat) × (Nat → Option Nat)) (i : Nat) =>
    (Function.update lr.1 ((i + 1) % n) (some i),
      Function.update lr.2 i (some ((i + 1) % n)))
  let lr := (List.range n).foldl step (fun _ => none, fun _ => none)
  ⟨ids.map NodeSt.start, lr.1, lr.2⟩

/-! ### Basic lemmas about the per-node transition -/

theorem dueNow_iff (now t m : Nat) : dueNow now t m = true ↔ t + (2 ^ m - 1) ≤ now := by
  have hA : 1 ≤ 2 ^ m := Nat.one_le_two_pow
  have hcast : ((2 ^ m : Nat) : Int) = (2 : Int) ^ m := by push_cast; ring
  unfold dueNow
  rw [decide_eq_true_eq, ← hcast]
  omega

theorem release_eq (now : Nat) (W : List WaitEntry) :
    release now W =
      ((W.filter fun e => dueNow now e.2.2 e.1).map fun e => (e.1, e.2.1),
        W.filter fun e => !dueNow now e.2.2 e.1) := by
  induction W with
  | nil => rfl
  | cons e rest ih =>
    simp only [release, ih, List.filter_cons]
    by_cases h : dueNow now e.2.2 e.1 = true
    · simp [h]
    · simp [h]

theorem activate_waiting (st : NodeSt) (R : List Msg) :
    (activate st R).1.waiting = st.waiting := by
  unfold activate
  split <;> [skip; rfl]
  split <;> rfl

theorem activate_id (st : NodeSt) (R : List Msg) :
    (activate st R).1.id = st.id := by
  unfold activate
  split <;> [skip; rfl]
  split <;> rfl

theorem activate_not_asleep (st : NodeSt) (R : List Msg) (h : st.status ≠ .asleep) :
    activate st R = (st, []) := by
  unfold activate
  split
  · exact absurd (by assumption) h
  · rfl

theorem compareMsg_id (now : Nat) (acc : NodeSt × List Msg) (msg : Msg) :
    (compareMsg now acc msg).1.id = acc.1.id := by
  unfold compareMsg
  dsimp only
  split
  · split <;> rfl
  · split <;> rfl

theorem foldCompare_id (now : Nat) (R : List Msg) (acc : NodeSt × List Msg) :
    (R.foldl (compareMsg now) acc).1.id = acc.1.id := by
  induction R generalizing acc with
  | nil => rfl
  | cons msg rest ih => rw [List.foldl_cons, ih, compareMsg_id]

theorem compareMsg_waiting_extend (now : Nat) (acc : NodeSt × List Msg) (msg : Msg) :
    ∃ extra, (compareMsg now acc msg).1.waiting = acc.1.waiting ++ extra := by
  unfold compareMsg
  dsimp only
  split
  · split
    · exact ⟨[], by simp⟩
    · exact ⟨[(msg.1, 2, now)], rfl⟩
  · split
    · exact ⟨[], by simp⟩
    · exact ⟨[], by simp⟩

theorem foldCompare_waiting_extend (now : Nat) (R : List Msg) (acc : NodeSt × List Msg) :
    ∃ extra, (R.foldl (compareMsg now) acc).1.waiting = acc.1.waiting ++ extra := by
  induction R generalizing acc with
  | nil => exact ⟨[], by simp⟩
  | cons msg rest ih =>
    obtain ⟨e1, he1⟩ := compareMsg_waiting_extend now acc msg
    obtain ⟨e2, he2⟩ := ih (compareMsg now acc msg)
    exact ⟨e1 ++ e2, by rw [List.foldl_cons, he2, he1, List.append_assoc]⟩

theorem stepNode_waiting (now : Nat) (st : NodeSt) (R : List Msg) :
    (stepNode now st R).1.waiting =
      ((R.foldl (compareMsg now) (activate st R)).1.waiting.filter
        fun e => !dueNow now e.2.2 e.1) := by
  unfold stepNode
  dsimp only
  rw [release_eq]

theorem stepNode_emits (now : Nat) (st : NodeSt) (R : List Msg) :
    (stepNode now st R).2 =
      (R.foldl (compareMsg now) (activate st R)).2 ++
        (((R.foldl (compareMsg now) (activate st R)).1.waiting.filter
          fun e => dueNow now e.2.2 e.1).map fun e => (e.1, e.2.1)) := by
  unfold stepNode
  dsimp only
  rw [release_eq]

theorem iterRounds_succ_node {n : Nat} (ids : Fin n → Nat) (r : Nat) (i : Fin n) :
    (iterRounds ids (r + 1)).node i =
      (stepNode r ((iterRounds ids r).node i) ((iterRounds ids r).msgs i)).1 := rfl

theorem compareMsg_min (now : Nat) (acc : NodeSt × List Msg) (msg : Msg) :
    (compareMsg now acc msg).1.min = acc.1.min ∨
      ((compareMsg now acc msg).1.min = .val msg.1 ∧
        MinVal.acceptLt msg.1 acc.1.min = true) := by
  unfold compareMsg
  dsimp only
  split
  · rename_i hacc
    split
    · exact Or.inr ⟨rfl, hacc⟩
    · exact Or.inr ⟨rfl, hacc⟩
  · split
    · exact Or.inl rfl
    · exact Or.inl rfl

theorem foldCompare_min_only (now : Nat) (R : List Msg) (acc : NodeSt × List Msg) (μ : Nat)
    (hmin : acc.1.min = .val μ) :
    ∃ μ', (R.foldl (compareMsg now) acc).1.min = .val μ' ∧ μ' ≤ μ := by
  induction R generalizing acc μ with
  | nil => exact ⟨μ, hmin, le_refl _⟩
  | cons msg rest ih =>
    rw [List.foldl_cons]
    rcases compareMsg_min now acc msg with hsame | ⟨hset, hacc⟩
    · exact ih _ _ (hsame.trans hmin)
    · rw [hmin] at hacc
      have hlt : msg.1 < μ := by
        simpa [MinVal.acceptLt] using hacc
      obtain ⟨μ', h1, h2⟩ := ih _ _ hset
      exact ⟨μ', h1, by omega⟩

theorem stepNode_min (now : Nat) (st : NodeSt) (R : List Msg) :
    (stepNode now st R).1.min = (R.foldl (compareMsg now) (activate st R)).1.min := rfl

/-- A numeric minimum can only decrease, and a new value always comes from a
received message. -/
theorem foldCompare_min_src (now : Nat) (R : List Msg) (acc : NodeSt × List Msg) (μ : Nat)
    (hmin : acc.1.min = .val μ) :
    ∃ μ2, (R.foldl (compareMsg now) acc).1.min = .val μ2 ∧ μ2 ≤ μ ∧
      (μ2 = μ ∨ ∃ h, (μ2, h) ∈ R) := by
  induction R generalizing acc μ with
  | nil => exact ⟨μ, hmin, le_refl _, Or.inl rfl⟩
  | cons msg rest ih =>
    rw [List.foldl_cons]
    rcases compareMsg_min now acc msg with hsame | ⟨hset, hacc⟩
    · obtain ⟨μ2, h1, h2, h3⟩ := ih _ _ (hsame.trans hmin)
      refine ⟨μ2, h1, h2, ?_⟩
      rcases h3 with h3 | ⟨hh, h3⟩
      · exact Or.inl h3
      · exact Or.inr ⟨hh, List.mem_cons_of_mem _ h3⟩
    · rw [hmin] at hacc
      have hlt : msg.1 < μ := by
        simpa [MinVal.acceptLt] using hacc
      obtain ⟨μ2, h1, h2, h3⟩ := ih _ _ hset
      refine ⟨μ2, h1, by omega, ?_⟩
      rcases h3 with h3 | ⟨hh, h3⟩
      · refine Or.inr ⟨msg.2, ?_⟩
        rw [h3]
        exact List.mem_cons_self msg rest
      · exact Or.inr ⟨hh, List.mem_cons_of_mem _ h3⟩

/-! ### Claim C3: waiting-entry release timing -/

/-- **C3.** A waiting entry `(m, 2, t)` queued at round `t` is released exactly
at the first round `r` with `r - t ≥ 2^m - 1`: the release test of source line
97 holds at round `now` iff `t + 2^m - 1 ≤ now`; the waiting scan moves exactly
the due entries into `S` (in order) and keeps exactly the not-yet-due ones
unchanged; and along the actual round iteration an entry still below its
release round is carried to the next round untouched, while a due entry is
emitted in `S` at that round and removed from the waiting queue. -/
theorem claim_C3_release_timing :
    (∀ now t m : Nat, dueNow now t m = true ↔ t + (2 ^ m - 1) ≤ now) ∧
    (∀ (now : Nat) (W : List WaitEntry),
      release now W =
        ((W.filter fun e => dueNow now e.2.2 e.1).map fun e => (e.1, e.2.1),
          W.filter fun e => !dueNow now e.2.2 e.1)) ∧
    (∀ {n : Nat} (ids : Fin n → Nat) (r : Nat) (i : Fin n) (m h t : Nat),
      (m, h, t) ∈ ((iterRounds ids r).node i).waiting →
        (r < t + (2 ^ m - 1) →
          (m, h, t) ∈ ((iterRounds ids (r + 1)).node i).waiting) ∧
        (t + (2 ^ m - 1) ≤ r →
          (m, h) ∈ (stepNode r ((iterRounds ids r).node i)
            ((iterRounds ids r).msgs i)).2 ∧
          (m, h, t) ∉ ((iterRounds ids (r + 1)).node i).waiting)) := by
  refine ⟨dueNow_iff, release_eq, ?_⟩
  intro n ids r i m h t hmem
  set st := (iterRounds ids r).node i with hst
  set R := (iterRounds ids r).msgs i with hR
  have hfold : ∃ extra,
      (R.foldl (compareMsg r) (activate st R)).1.waiting = st.waiting ++ extra := by
    obtain ⟨extra, hx⟩ := foldCompare_waiting_extend r R (activate st R)
    exact ⟨extra, by rw [hx, activate_waiting]⟩
  obtain ⟨extra, hx⟩ := hfold
  have hmem' : (m, h, t) ∈ (R.foldl (compareMsg r) (activate st R)).1.waiting := by
    rw [hx]; exact List.mem_append_left _ hmem
  constructor
  · intro hlt
    have hdue : dueNow r t m = false := by
      rw [← Bool.not_eq_true, dueNow_iff]; omega
    rw [iterRounds_succ_node, stepNode_waiting, List.mem_filter]
    exact ⟨hmem', by simp [hdue]⟩
  · intro hle
    have hdue : dueNow r t m = true := (dueNow_iff r t m).mpr hle
    constructor
    · rw [stepNode_emits]
      refine List.mem_append_right _ ?_
      exact List.mem_map.mpr ⟨(m, h, t), List.mem_filter.mpr ⟨hmem', hdue⟩, rfl⟩
    · rw [iterRounds_succ_node, stepNode_waiting]
      intro hbad
      have := (List.mem_filter.mp hbad).2
      simp [hdue] at this

/-- **C3 witness.** In the ring `[3, 1, 4, 2]`, the entry `(1, 2, 1)` queued at
round 1 by the node with id 3 is released exactly at round `1 + 2^1 - 1 = 2`,
while the entry `(2, 2, 1)` of the node with id 4 (release round
`1 + 2^2 - 1 = 4`) is still kept at round 2. -/
theorem claim_C3_release_timing_witness :
    ((1, 2, 1) : WaitEntry) ∈ ((iterRounds (![3, 1, 4, 2] : Fin 4 → Nat) 2).node 0).waiting ∧
    ((1, 2) : Msg) ∈ (stepNode 2 ((iterRounds (![3, 1, 4, 2] : Fin 4 → Nat) 2).node 0)
      ((iterRounds (![3, 1, 4, 2] : Fin 4 → Nat) 2).msgs 0)).2 ∧
    ((1, 2, 1) : WaitEntry) ∉ ((iterRounds (![3, 1, 4, 2] : Fin 4 → Nat) 3).node 0).waiting ∧
    ((2, 2, 1) : WaitEntry) ∈ ((iterRounds (![3, 1, 4, 2] : Fin 4 → Nat) 3).node 2).waiting := by
  refine ⟨by decide, ?_, ?_, ?_⟩
  · exact ((claim_C3_release_timing.2.2 (![3, 1, 4, 2] : Fin 4 → Nat) 2 0 1 2 1
      (by decide)).2 (by decide)).1
  · exact ((claim_C3_release_timing.2.2 (![3, 1, 4, 2] : Fin 4 → Nat) 2 0 1 2 1
      (by decide)).2 (by decide)).2
  · exact (claim_C3_release_timing.2.2 (![3, 1, 4, 2] : Fin 4 → Nat) 2 2 2 2 1
      (by decide)).1 (by decide)

/-! ### Claim C2: topology construction performs no validation -/

/-- **C2 counterexample.** On the duplicate identifier list `[1, 1]` the
construction raises no configuration error: it silently produces a complete
two-node ring (both nodes carrying id `1`, mutually linked), and on the empty
list it silently produces an empty ring. -/
theorem claim_C2_counterexample :
    (buildRing [1, 1]).nodes =
      [⟨1, .asleep, .unset, [], false⟩, ⟨1, .asleep, .unset, [], false⟩] ∧
    (buildRing [1, 1]).left 0 = some 1 ∧ (buildRing [1, 1]).left 1 = some 0 ∧
    (buildRing [1, 1]).right 0 = some 1 ∧ (buildRing [1, 1]).right 1 = some 0 ∧
    (buildRing []).nodes = [] := by
  refine ⟨rfl, ?_, ?_, ?_, ?_, rfl⟩ <;> rfl

theorem buildRing_right_char (ids : List Nat) (m : Nat) (hm : m ≤ ids.length) :
    ∀ x : Nat,
      (((List.range m).foldl
        (fun (lr : (Nat → Option Nat) × (Nat → Option Nat)) (i : Nat) =>
          (Function.update lr.1 ((i + 1) % ids.length) (some i),
            Function.update lr.2 i (some ((i + 1) % ids.length))))
        (fun _ => none, fun _ => none)).2 x) =
      if x < m then some ((x + 1) % ids.length) else none := by
  induction m with
  | zero => intro x; simp
  | succ m ih =>
    intro x
    rw [List.range_succ, List.foldl_append, List.foldl_cons, List.foldl_nil]
    dsimp only
    rcases Nat.lt_trichotomy x m with hx | hx | hx
    · rw [Function.update_noteq (by omega)]
      rw [ih (by omega) x]
      simp [hx, Nat.lt_succ_of_lt hx]
    · subst hx
      rw [Function.update_same]
      simp
    · rw [Function.update_noteq (by omega)]
      rw [ih (by omega) x]
      have h1 : ¬ x < m := by omega
      have h2 : ¬ x < m + 1 := by omega
      simp [h1, h2]

theorem buildRing_left_char (ids : List Nat) (m : Nat) (hm : m ≤ ids.length) :
    ∀ v : Nat, v < m →
      (((List.range m).foldl
        (fun (lr : (Nat → Option Nat) × (Nat → Option Nat)) (i : Nat) =>
          (Function.update lr.1 ((i + 1) % ids.length) (some i),
            Function.update lr.2 i (some ((i + 1) % ids.length))))
        (fun _ => none, fun _ => none)).1 ((v + 1) % ids.length)) = some v := by
  induction m with
  | zero => intro v hv; omega
  | succ m ih =>
    intro v hv
    rw [List.range_succ, List.foldl_append, List.foldl_cons, List.foldl_nil]
    dsimp only
    rcases Nat.lt_or_ge v m with hx | hx
    · have hkey : (v + 1) % ids.length ≠ (m + 1) % ids.length := by
        have hn : m < ids.length := by omega
        have hv1 : v + 1 ≤ ids.length := by omega
        have hm1 : m + 1 ≤ ids.length := by omega
        rcases Nat.lt_or_ge (v + 1) ids.length with h1 | h1
        · rw [Nat.mod_eq_of_lt h1]
          rcases Nat.lt_or_ge (m + 1) ids.length with h2 | h2
          · rw [Nat.mod_eq_of_lt h2]; omega
          · have : m + 1 = ids.length := by omega
            rw [this, Nat.mod_self]; omega
        · have hveq : v + 1 = ids.length := by omega
          omega
      rw [Function.update_noteq hkey]
      exact ih (by omega) v hx
    · have : v = m := by omega
      subst this
      rw [Function.update_same]

/-- **C2 amended.** Topology construction never fails: it is a total function
that accepts every identifier list — duplicates and lists of fewer than one
element included — and silently produces a ring: one fresh node per identifier,
each index `i < N` linked rightwards to `(i+1) % N` and each index `j < N`
linked leftwards to `(j+N-1) % N`. -/
theorem claim_C2_amended (ids : List Nat) :
    (buildRing ids).nodes = ids.map NodeSt.start ∧
    (∀ i : Nat, i < ids.length →
      (buildRing ids).right i = some ((i + 1) % ids.length)) ∧
    (∀ j : Nat, j < ids.length →
      (buildRing ids).left j = some ((j + ids.length - 1) % ids.length)) := by
  refine ⟨rfl, ?_, ?_⟩
  · intro i hi
    have := buildRing_right_char ids ids.length (le_refl _) i
    simpa [buildRing, hi] using this
  · intro j hj
    have hn : 1 ≤ ids.length := by omega
    set N := ids.length with hN
    have hv : (j + N - 1) % N < N := Nat.mod_lt _ (by omega)
    have hkey : ((j + N - 1) % N + 1) % N = j := by
      rcases Nat.eq_zero_or_pos j with hj0 | hjpos
      · subst hj0
        have h1 : (0 + N - 1) % N = N - 1 := by
          rw [Nat.zero_add, Nat.mod_eq_of_lt (by omega)]
        rw [h1]
        have : N - 1 + 1 = N := by omega
        rw [this, Nat.mod_self]
      · have h1 : (j + N - 1) % N = j - 1 := by
          have : j + N - 1 = (j - 1) + N := by omega
          rw [this, Nat.add_mod_right, Nat.mod_eq_of_lt (by omega)]
        rw [h1]
        have : j - 1 + 1 = j := by omega
        rw [this, Nat.mod_eq_of_lt hj]
    have := buildRing_left_char ids N (le_refl _) ((j + N - 1) % N) hv
    rw [hkey] at this
    simpa [buildRing] using this

/-- **C2 amended, witness.** -/
theorem claim_C2_amended_witness :
    (buildRing [7, 7, 9]).right 2 = some 0 ∧ (buildRing [7, 7, 9]).left 0 = some 2 := by
  refine ⟨?_, ?_⟩
  · exact (claim_C2_amended [7, 7, 9]).2.1 2 (by norm_num)
  · have := (claim_C2_amended [7, 7, 9]).2.2 0 (by norm_num)
    simpa using this

/-! ### Claim C8: the multi-leader outcome is reported normally -/

/-- **C8 counterexample.** With two nodes simultaneously `elected`, the final
report of `run_election` is the ordinary leader announcement naming the first
leader — exactly the normal-path outcome, with no internal consistency error:
the reporting code has no error branch at all. -/
theorem claim_C8_counterexample :
    electionReport
      [⟨7, .elected, .val 7, [], true⟩, ⟨9, .elected, .val 9, [], true⟩] =
      .leaderIs 7 ∧
    leadersOf [⟨7, .elected, .val 7, [], true⟩, ⟨9, .elected, .val 9, [], true⟩] =
      [⟨7, .elected, .val 7, [], true⟩, ⟨9, .elected, .val 9, [], true⟩] := by
  exact ⟨rfl, rfl⟩

/-- **C8 amended.** If more than one node ends with `is_leader = true`, the
core does not surface any internal consistency error: it takes the same
reporting path as the single-leader case, announcing the first leader in
processing order and returning the full leader list. -/
theorem claim_C8_amended (nodes : List NodeSt) (l : NodeSt) (rest : List NodeSt)
    (hl : leadersOf nodes = l :: rest) (hmulti : rest ≠ []) :
    electionReport nodes = .leaderIs l.id := by
  unfold electionReport
  rw [hl]

/-- **C8 amended, witness.** -/
theorem claim_C8_amended_witness :
    electionReport
      [⟨3, .elected, .val 3, [], true⟩, ⟨5, .elected, .val 5, [], true⟩] =
      .leaderIs 3 := by
  exact claim_C8_amended _ ⟨3, .elected, .val 3, [], true⟩
    [⟨5, .elected, .val 5, [], true⟩] rfl (by simp)

/-! ### Claim C9: the trivial one-node ring elects itself by round 1 -/

/-- **C9.** For the ring of a single node with identifier 5 (its own left and
right neighbor), the node activates spontaneously in round 0 and becomes leader
in round 1: two rounds of the scheduler suffice to reach status `elected` with
`is_leader = true`, after which the run halts by quiescence; the full
`run_election` with the default cap of 100 ends in the same state. -/
theorem claim_C9_trivial_ring :
    (((runOrdered (electionOrder (fun _ : Fin 1 => 5) 5) 2 0
        (initConfig fun _ : Fin 1 => 5)).1.node 0).status = .elected ∧
      ((runOrdered (electionOrder (fun _ : Fin 1 => 5) 5) 2 0
        (initConfig fun _ : Fin 1 => 5)).1.node 0).is_leader = true) ∧
    (((run_election (fun _ : Fin 1 => 5) 100 5).1.node 0).status = .elected ∧
      ((run_election (fun _ : Fin 1 => 5) 100 5).1.node 0).is_leader = true ∧
      (run_election (fun _ : Fin 1 => 5) 100 5).2 = true) := by
  exact ⟨⟨by decide, by decide⟩, by decide, by decide, by decide⟩

/-! ### Characterization of the comparison loop away from relay status -/

/-- The node state produced by an accepted comparison (source lines 72-85). -/
def acceptSt (now : Nat) (st : NodeSt) (m : Nat) : NodeSt :=
  { st with
      status := .not_elected
      min := .val m
      waiting := st.waiting ++ [(m, 2, now)] }

/-- The node state produced by the self-match branch (source lines 88-90). -/
def electSt (st : NodeSt) : NodeSt :=
  { st with
      status := .elected
      is_leader := true }

/-- Closed form of one comparison iteration (source lines 68-91) for a node
whose `min` is a number and whose status is not `relay`. -/
theorem compareMsg_eq_val (now : Nat) (st : NodeSt) (S : List Msg) (m h μ : Nat)
    (hmin : st.min = .val μ) (hrel : st.status ≠ .relay) :
    compareMsg now (st, S) (m, h) =
      if m < μ then (acceptSt now st m, S)
      else if m = st.id then (electSt st, S)
      else (st, S) := by
  unfold compareMsg acceptSt electSt
  dsimp only
  rw [hmin]
  unfold MinVal.acceptLt
  by_cases hlt : m < μ
  · simp [hlt, hrel]
  · simp [hlt]

theorem compareMsg_noRelay (now : Nat) (acc : NodeSt × List Msg) (msg : Msg)
    (h : acc.1.status ≠ .relay) :
    (compareMsg now acc msg).1.status ≠ .relay ∧ (compareMsg now acc msg).2 = acc.2 := by
  unfold compareMsg
  dsimp only
  split
  · split
    · rename_i hcond
      exact absurd hcond.1 h
    · exact ⟨by simp, rfl⟩
  · split
    · exact ⟨by simp, rfl⟩
    · exact ⟨h, rfl⟩

theorem foldCompare_noRelay (now : Nat) (R : List Msg) (acc : NodeSt × List Msg)
    (h : acc.1.status ≠ .relay) :
    (R.foldl (compareMsg now) acc).1.status ≠ .relay ∧
      (R.foldl (compareMsg now) acc).2 = acc.2 := by
  induction R generalizing acc with
  | nil => exact ⟨h, rfl⟩
  | cons msg rest ih =>
    obtain ⟨h1, h2⟩ := compareMsg_noRelay now acc msg h
    obtain ⟨h3, h4⟩ := ih _ h1
    exact ⟨h3, by rw [List.foldl_cons, h4, h2]⟩

theorem acceptSt_status (now : Nat) (st : NodeSt) (m : Nat) :
    (acceptSt now st m).status = .not_elected := rfl

theorem acceptSt_min (now : Nat) (st : NodeSt) (m : Nat) :
    (acceptSt now st m).min = .val m := rfl

theorem acceptSt_id (now : Nat) (st : NodeSt) (m : Nat) :
    (acceptSt now st m).id = st.id := rfl

theorem acceptSt_waiting (now : Nat) (st : NodeSt) (m : Nat) :
    (acceptSt now st m).waiting = st.waiting ++ [(m, 2, now)] := rfl

theorem acceptSt_is_leader (now : Nat) (st : NodeSt) (m : Nat) :
    (acceptSt now st m).is_leader = st.is_leader := rfl

theorem acceptSt_not_relay (now : Nat) (st : NodeSt) (m : Nat) :
    (acceptSt now st m).status ≠ .relay := by
  rw [acceptSt_status]; intro hc; exact absurd hc (by decide)

theorem electSt_status (st : NodeSt) : (electSt st).status = .elected := rfl

theorem electSt_min (st : NodeSt) : (electSt st).min = st.min := rfl

theorem electSt_id (st : NodeSt) : (electSt st).id = st.id := rfl

theorem electSt_waiting (st : NodeSt) : (electSt st).waiting = st.waiting := rfl

theorem electSt_is_leader (st : NodeSt) : (electSt st).is_leader = true := rfl

theorem electSt_not_relay (st : NodeSt) : (electSt st).status ≠ .relay := by
  rw [electSt_status]; intro hc; exact absurd hc (by decide)

theorem foldCompare_status (now : Nat) (R : List Msg) (st : NodeSt) (S : List Msg) (μ : Nat)
    (hmin : st.min = .val μ) (hrel : st.status ≠ .relay) :
    (R.foldl (compareMsg now) (st, S)).1.status = st.status ∨
      (R.foldl (compareMsg now) (st, S)).1.status = .not_elected ∨
      (R.foldl (compareMsg now) (st, S)).1.status = .elected := by
  induction R generalizing st S μ with
  | nil => exact Or.inl rfl
  | cons msg rest ih =>
    obtain ⟨m, h⟩ := msg
    rw [List.foldl_cons, compareMsg_eq_val now st S m h μ hmin hrel]
    by_cases hlt : m < μ
    · rw [if_pos hlt]
      rcases ih (acceptSt now st m) S m (acceptSt_min now st m) (acceptSt_not_relay now st m)
        with h1 | h1 | h1
      · exact Or.inr (Or.inl (h1.trans (acceptSt_status now st m)))
      · exact Or.inr (Or.inl h1)
      · exact Or.inr (Or.inr h1)
    · rw [if_neg hlt]
      by_cases hid : m = st.id
      · rw [if_pos hid]
        rcases ih (electSt st) S μ ((electSt_min st).trans hmin) (electSt_not_relay st)
          with h1 | h1 | h1
        · exact Or.inr (Or.inr (h1.trans (electSt_status st)))
        · exact Or.inr (Or.inl h1)
        · exact Or.inr (Or.inr h1)
      · rw [if_neg hid]
        exact ih st S μ hmin hrel

theorem foldCompare_elected (now : Nat) (R : List Msg) (st : NodeSt) (S : List Msg) (μ : Nat)
    (hmin : st.min = .val μ) (hrel : st.status ≠ .relay)
    (hel : (R.foldl (compareMsg now) (st, S)).1.status = .elected) :
    st.status = .elected ∨ ∃ h, (st.id, h) ∈ R := by
  induction R generalizing st S μ with
  | nil => exact Or.inl hel
  | cons msg rest ih =>
    obtain ⟨m, h⟩ := msg
    rw [List.foldl_cons, compareMsg_eq_val now st S m h μ hmin hrel] at hel
    by_cases hlt : m < μ
    · rw [if_pos hlt] at hel
      rcases ih (acceptSt now st m) S m (acceptSt_min now st m) (acceptSt_not_relay now st m)
          hel with h1 | ⟨hh, h1⟩
      · rw [acceptSt_status] at h1
        exact absurd h1 (by decide)
      · rw [acceptSt_id] at h1
        exact Or.inr ⟨hh, List.mem_cons_of_mem _ h1⟩
    · rw [if_neg hlt] at hel
      by_cases hid : m = st.id
      · rw [if_pos hid] at hel
        exact Or.inr ⟨h, by rw [← hid]; exact List.mem_cons_self _ _⟩
      · rw [if_neg hid] at hel
        rcases ih st S μ hmin hrel hel with h1 | ⟨hh, h1⟩
        · exact Or.inl h1
        · exact Or.inr ⟨hh, List.mem_cons_of_mem _ h1⟩

theorem foldCompare_untouched (now : Nat) (R : List Msg) (st : NodeSt) (S : List Msg)
    (μ : Nat) (hmin : st.min = .val μ) (hrel : st.status ≠ .relay)
    (hid : ∀ h, (st.id, h) ∉ R) :
    (R.foldl (compareMsg now) (st, S)).1.is_leader = st.is_leader ∧
      ((R.foldl (compareMsg now) (st, S)).1.status = .elected → st.status = .elected) := by
  induction R generalizing st S μ with
  | nil => exact ⟨rfl, fun h => h⟩
  | cons msg rest ih =>
    obtain ⟨m, h⟩ := msg
    have hid' : ∀ h', (st.id, h') ∉ rest := fun h' hc => hid h' (List.mem_cons_of_mem _ hc)
    rw [List.foldl_cons, compareMsg_eq_val now st S m h μ hmin hrel]
    by_cases hlt : m < μ
    · rw [if_pos hlt]
      have hid2 : ∀ h', ((acceptSt now st m).id, h') ∉ rest := by
        rw [acceptSt_id]; exact hid'
      obtain ⟨h1, h2⟩ := ih (acceptSt now st m) S m (acceptSt_min now st m)
        (acceptSt_not_relay now st m) hid2
      refine ⟨h1.trans (acceptSt_is_leader now st m), fun hc => ?_⟩
      have hbad : Status.not_elected = Status.elected :=
        (acceptSt_status now st m).symm.trans (h2 hc)
      exact absurd hbad (by decide)
    · rw [if_neg hlt]
      by_cases heq : m = st.id
      · subst heq
        exact absurd (List.mem_cons_self (st.id, h) rest) (hid h)
      · rw [if_neg heq]
        exact ih st S μ hmin hrel hid'

theorem foldCompare_noAccept (now : Nat) (R : List Msg) (st : NodeSt) (S : List Msg)
    (μ : Nat) (hmin : st.min = .val μ) (hrel : st.status ≠ .relay)
    (hge : ∀ v h, (v, h) ∈ R → μ ≤ v) :
    (R.foldl (compareMsg now) (st, S)).1.min = .val μ ∧
      (R.foldl (compareMsg now) (st, S)).1.waiting = st.waiting ∧
      ((∃ h, (st.id, h) ∈ R) →
        (R.foldl (compareMsg now) (st, S)).1.status = .elected ∧
          (R.foldl (compareMsg now) (st, S)).1.is_leader = true) ∧
      ((∀ h, (st.id, h) ∉ R) →
        (R.foldl (compareMsg now) (st, S)).1.status = st.status ∧
          (R.foldl (compareMsg now) (st, S)).1.is_leader = st.is_leader) := by
  induction R generalizing st S with
  | nil =>
    refine ⟨hmin, rfl, ?_, fun _ => ⟨rfl, rfl⟩⟩
    rintro ⟨h, hc⟩
    exact absurd hc (List.not_mem_nil _)
  | cons msg rest ih =>
    obtain ⟨m, h⟩ := msg
    have hge' : ∀ v h', (v, h') ∈ rest → μ ≤ v :=
      fun v h' hv => hge v h' (List.mem_cons_of_mem _ hv)
    have hgehead : μ ≤ m := hge m h (List.mem_cons_self _ _)
    rw [List.foldl_cons, compareMsg_eq_val now st S m h μ hmin hrel]
    rw [if_neg (by omega)]
    by_cases hid : m = st.id
    · subst hid
      rw [if_pos rfl]
      obtain ⟨h1, h2, h3, h4⟩ := ih (electSt st) S ((electSt_min st).trans hmin)
        (electSt_not_relay st) hge'
      refine ⟨h1, h2.trans (electSt_waiting st), fun _ => ?_, fun hno => ?_⟩
      · by_cases hr : ∃ h', (st.id, h') ∈ rest
        · exact h3 hr
        · push_neg at hr
          obtain ⟨h5, h6⟩ := h4 fun h' => hr h'
          exact ⟨h5.trans (electSt_status st), h6.trans (electSt_is_leader st)⟩
      · exact absurd (List.mem_cons_self (st.id, h) rest) (hno h)
    · rw [if_neg hid]
      obtain ⟨h1, h2, h3, h4⟩ := ih st S hmin hrel hge'
      refine ⟨h1, h2, ?_, ?_⟩
      · rintro ⟨h', hmem⟩
        rcases List.mem_cons.mp hmem with hc | hc
        · exact absurd (congrArg Prod.fst hc).symm hid
        · exact h3 ⟨h', hc⟩
      · intro hno
        exact h4 fun h' hc => hno h' (List.mem_cons_of_mem _ hc)

theorem foldCompare_waiting_val (now : Nat) (R : List Msg) (st : NodeSt) (S : List Msg)
    (μ : Nat) (hmin : st.min = .val μ) (hrel : st.status ≠ .relay) :
    ∃ extra, (R.foldl (compareMsg now) (st, S)).1.waiting = st.waiting ++ extra ∧
      ∀ e ∈ extra, (∃ h, (e.1, h) ∈ R) ∧ e.2.1 = 2 ∧ e.2.2 = now ∧ e.1 < μ := by
  induction R generalizing st S μ with
  | nil => exact ⟨[], by simp, by simp⟩
  | cons msg rest ih =>
    obtain ⟨m, h⟩ := msg
    rw [List.foldl_cons, compareMsg_eq_val now st S m h μ hmin hrel]
    by_cases hlt : m < μ
    · rw [if_pos hlt]
      obtain ⟨extra, h1, h2⟩ := ih (acceptSt now st m) S m (acceptSt_min now st m)
        (acceptSt_not_relay now st m)
      refine ⟨(m, 2, now) :: extra, ?_, ?_⟩
      · rw [h1, acceptSt_waiting]
        simp
      · intro e he
        rcases List.mem_cons.mp he with he | he
        · subst he
          exact ⟨⟨h, List.mem_cons_self _ _⟩, rfl, rfl, hlt⟩
        · obtain ⟨⟨hh, hm⟩, h3, h4, h5⟩ := h2 e he
          exact ⟨⟨hh, List.mem_cons_of_mem _ hm⟩, h3, h4, by omega⟩
    · rw [if_neg hlt]
      by_cases hid : m = st.id
      · rw [if_pos hid]
        obtain ⟨extra, h1, h2⟩ := ih (electSt st) S μ ((electSt_min st).trans hmin)
          (electSt_not_relay st)
        refine ⟨extra, h1.trans (by rw [electSt_waiting]), fun e he => ?_⟩
        obtain ⟨⟨hh, hm⟩, h3, h4, h5⟩ := h2 e he
        exact ⟨⟨hh, List.mem_cons_of_mem _ hm⟩, h3, h4, h5⟩
      · rw [if_neg hid]
        obtain ⟨extra, h1, h2⟩ := ih st S μ hmin hrel
        refine ⟨extra, h1, fun e he => ?_⟩
        obtain ⟨⟨hh, hm⟩, h3, h4, h5⟩ := h2 e he
        exact ⟨⟨hh, List.mem_cons_of_mem _ hm⟩, h3, h4, h5⟩

theorem foldCompare_acceptOne (now B : Nat) (R : List Msg) (st : NodeSt) (S : List Msg)
    (μ : Nat) (hmin : st.min = .val μ) (hrel : st.status ≠ .relay) (hBμ : B < μ)
    (hcount : (R.countP fun ms => ms.1 == B) = 1)
    (hge : ∀ v h, (v, h) ∈ R → B ≤ v) (hid : ∀ h, (st.id, h) ∉ R) :
    ∃ extra, (R.foldl (compareMsg now) (st, S)).1.waiting = st.waiting ++ extra ∧
      (extra.countP fun e => e.1 == B) = 1 ∧
      (∀ e ∈ extra, e.1 = B → e = (B, 2, now)) ∧
      (R.foldl (compareMsg now) (st, S)).1.min = .val B ∧
      (R.foldl (compareMsg now) (st, S)).1.status = .not_elected ∧
      (R.foldl (compareMsg now) (st, S)).1.is_leader = st.is_leader := by
  induction R generalizing st S μ with
  | nil => simp at hcount
  | cons msg rest ih =>
    obtain ⟨m, h⟩ := msg
    have hge' : ∀ v h', (v, h') ∈ rest → B ≤ v :=
      fun v h' hv => hge v h' (List.mem_cons_of_mem _ hv)
    have hid' : ∀ h', (st.id, h') ∉ rest :=
      fun h' hc => hid h' (List.mem_cons_of_mem _ hc)
    rw [List.foldl_cons, compareMsg_eq_val now st S m h μ hmin hrel]
    by_cases hB : m = B
    · subst hB
      have hrest0 : (rest.countP fun ms => ms.1 == m) = 0 := by
        have hc2 := hcount
        rw [List.countP_cons] at hc2
        have hif : (if ((m, h) : Msg).1 == m then 1 else 0) = 1 := by simp
        rw [hif] at hc2
        omega
      rw [if_pos hBμ]
      have hgeM : ∀ v h', (v, h') ∈ rest → m ≤ v := fun v h' hv => hge' v h' hv
      have hid2 : ∀ h', ((acceptSt now st m).id, h') ∉ rest := by
        rw [acceptSt_id]; exact hid'
      obtain ⟨q1, q2, -, q4⟩ := foldCompare_noAccept now rest (acceptSt now st m) S m
        (acceptSt_min now st m) (acceptSt_not_relay now st m) hgeM
      obtain ⟨q5, q6⟩ := q4 hid2
      refine ⟨[(m, 2, now)], ?_, by simp, ?_, q1, ?_, ?_⟩
      · rw [q2, acceptSt_waiting]
      · intro e he hB
        rcases List.mem_singleton.mp he with rfl
        rfl
      · exact q5.trans (acceptSt_status now st m)
      · exact q6.trans (acceptSt_is_leader now st m)
    · have hrest1 : (rest.countP fun ms => ms.1 == B) = 1 := by
        rw [List.countP_cons] at hcount
        simp [hB] at hcount
        exact hcount
      by_cases hlt : m < μ
      · rw [if_pos hlt]
        have hBm : B < m := by
          have := hge m h (List.mem_cons_self _ _)
          omega
        have hid2 : ∀ h', ((acceptSt now st m).id, h') ∉ rest := by
          rw [acceptSt_id]; exact hid'
        obtain ⟨extra, e1, e2, e3, e4, e5, e6⟩ := ih (acceptSt now st m) S m
          (acceptSt_min now st m) (acceptSt_not_relay now st m) hBm hrest1 hge' hid2
        refine ⟨(m, 2, now) :: extra, ?_, ?_, ?_, e4, e5, ?_⟩
        · rw [e1, acceptSt_waiting]
          simp
        · rw [List.countP_cons]
          simp [hB, e2]
        · intro e he heB
          rcases List.mem_cons.mp he with rfl | he
          · exact absurd heB hB
          · exact e3 e he heB
        · exact e6.trans (acceptSt_is_leader now st m)
      · rw [if_neg hlt]
        by_cases heq : m = st.id
        · subst heq
          exact absurd (List.mem_cons_self (st.id, h) rest) (hid h)
        · rw [if_neg heq]
          exact ih st S μ hmin hrel hBμ hrest1 hge' hid'

theorem foldCompare_noB (now B : Nat) (R : List Msg) (st : NodeSt) (S : List Msg) (μ : Nat)
    (hmin : st.min = .val μ) (hrel : st.status ≠ .relay)
    (hcount : (R.countP fun ms => ms.1 == B) = 0)
    (hw : (st.waiting.countP fun e => e.1 == B) = 0) :
    ((R.foldl (compareMsg now) (st, S)).1.waiting.countP fun e => e.1 == B) = 0 := by
  obtain ⟨extra, h1, h2⟩ := foldCompare_waiting_val now R st S μ hmin hrel
  rw [h1, List.countP_append, hw]
  have hz : ∀ e ∈ extra, ¬ (e.1 == B) = true := by
    intro e he hc
    obtain ⟨⟨hh, hm⟩, _, _, _⟩ := h2 e he
    rw [beq_iff_eq] at hc
    have hnot := List.countP_eq_zero.mp hcount _ hm
    simp [hc] at hnot
  rw [List.countP_eq_zero.mpr hz]

/-! ### Projections of a node step and of a round -/

theorem stepNode_notAsleep (now : Nat) (st : NodeSt) (R : List Msg)
    (h : st.status ≠ .asleep) :
    stepNode now st R =
      ({ (R.foldl (compareMsg now) (st, [])).1 with
          waiting := (release now (R.foldl (compareMsg now) (st, [])).1.waiting).2 },
        (R.foldl (compareMsg now) (st, [])).2 ++
          (release now (R.foldl (compareMsg now) (st, [])).1.waiting).1) := by
  unfold stepNode
  rw [activate_not_asleep st R h]

theorem stepNode_S_release (now : Nat) (st : NodeSt) (R : List Msg)
    (hasleep : st.status ≠ .asleep) (hrel : st.status ≠ .relay) :
    (stepNode now st R).2 =
      (release now (R.foldl (compareMsg now) (st, [])).1.waiting).1 := by
  rw [stepNode_notAsleep now st R hasleep]
  dsimp only
  rw [(foldCompare_noRelay now R (st, []) hrel).2, List.nil_append]

theorem stepNode_status (now : Nat) (st : NodeSt) (R : List Msg)
    (h : st.status ≠ .asleep) :
    (stepNode now st R).1.status = (R.foldl (compareMsg now) (st, [])).1.status := by
  rw [stepNode_notAsleep now st R h]

theorem stepNode_min_live (now : Nat) (st : NodeSt) (R : List Msg)
    (h : st.status ≠ .asleep) :
    (stepNode now st R).1.min = (R.foldl (compareMsg now) (st, [])).1.min := by
  rw [stepNode_notAsleep now st R h]

theorem stepNode_leader_live (now : Nat) (st : NodeSt) (R : List Msg)
    (h : st.status ≠ .asleep) :
    (stepNode now st R).1.is_leader = (R.foldl (compareMsg now) (st, [])).1.is_leader := by
  rw [stepNode_notAsleep now st R h]

theorem stepNode_waiting_live (now : Nat) (st : NodeSt) (R : List Msg)
    (h : st.status ≠ .asleep) :
    (stepNode now st R).1.waiting =
      (release now (R.foldl (compareMsg now) (st, [])).1.waiting).2 := by
  rw [stepNode_notAsleep now st R h]

theorem stepNode_id (now : Nat) (st : NodeSt) (R : List Msg) :
    (stepNode now st R).1.id = st.id := by
  unfold stepNode
  dsimp only
  rw [foldCompare_id, activate_id]

theorem stepRound_node {n : Nat} (now : Nat) (c : Config n) (i : Fin n) :
    (stepRound now c).1.node i = (stepNode now (c.node i) (c.msgs i)).1 := rfl

theorem stepRound_msgs {n : Nat} (now : Nat) (c : Config n) (q : Fin n) :
    (stepRound now c).1.msgs q =
      (stepNode now (c.node (rightIdx q)) (c.msgs (rightIdx q))).2 := rfl

theorem stepRound_activity {n : Nat} (now : Nat) (c : Config n) :
    (stepRound now c).2 = true ↔
      ∃ i, (stepNode now (c.node i) (c.msgs i)).2 ≠ [] ∨
        (stepNode now (c.node i) (c.msgs i)).1.waiting ≠ [] := by
  unfold stepRound
  dsimp only
  rw [List.any_eq_true]
  constructor
  · rintro ⟨i, -, hi⟩
    exact ⟨i, of_decide_eq_true hi⟩
  · rintro ⟨i, hi⟩
    exact ⟨i, List.mem_finRange i, decide_eq_true hi⟩

/-! ### All nodes wake spontaneously in round 0 and stay awake -/

theorem iterRounds_one_node {n : Nat} (ids : Fin n → Nat) (i : Fin n) :
    (iterRounds ids 1).node i = ⟨ids i, .participating, .val (ids i), [], false⟩ := rfl

theorem iterRounds_one_msgs {n : Nat} (ids : Fin n → Nat) (i : Fin n) :
    (iterRounds ids 1).msgs i = [(ids (rightIdx i), 1)] := rfl

/-- After round 0 every node is awake with a numeric `min`: status is
`participating`, `not_elected` or `elected`, never `asleep` or `relay`. -/
def Awake {n : Nat} (c : Config n) : Prop :=
  ∀ i, ((c.node i).status = .participating ∨ (c.node i).status = .not_elected ∨
      (c.node i).status = .elected) ∧ ∃ μ, (c.node i).min = .val μ

theorem Awake.not_asleep {n : Nat} {c : Config n} (h : Awake c) (i : Fin n) :
    (c.node i).status ≠ .asleep := by
  rcases (h i).1 with h1 | h1 | h1 <;> rw [h1] <;> decide

theorem Awake.not_relay {n : Nat} {c : Config n} (h : Awake c) (i : Fin n) :
    (c.node i).status ≠ .relay := by
  rcases (h i).1 with h1 | h1 | h1 <;> rw [h1] <;> decide

theorem Awake_step {n : Nat} (now : Nat) (c : Config n) (h : Awake c) :
    Awake (stepRound now c).1 := by
  intro i
  obtain ⟨hst, μ, hμ⟩ := h i
  have hasleep := h.not_asleep i
  have hrel := h.not_relay i
  rw [stepRound_node]
  constructor
  · rw [stepNode_status now _ _ hasleep]
    rcases foldCompare_status now (c.msgs i) (c.node i) [] μ hμ hrel with h1 | h1 | h1
    · rw [h1]; exact hst
    · exact Or.inr (Or.inl h1)
    · exact Or.inr (Or.inr h1)
  · rw [stepNode_min_live now _ _ hasleep]
    obtain ⟨μ', h1, -⟩ := foldCompare_min_only now (c.msgs i) (c.node i, []) μ hμ
    exact ⟨μ', h1⟩

theorem Awake_iter {n : Nat} (ids : Fin n → Nat) (k : Nat) :
    Awake (iterRounds ids (k + 1)) := by
  induction k with
  | zero =>
    intro i
    rw [iterRounds_one_node]
    exact ⟨Or.inl rfl, ids i, rfl⟩
  | succ k ih => exact Awake_step _ _ ih

/-! ### Claim C10: spontaneous activation, no relays, no first-phase relaying -/

/-- **C10.** Every node's inbound queue is empty at round 0 and every node is
processed, so each node activates spontaneously during round 0: after it, every
node is `participating` with `min` equal to its own id and has announced
`(id, 1)` to its left neighbor. Consequently no reachable state has a node in
status `relay` or with `min = +∞`, and from round 1 onwards the whole outgoing
set of every node comes from the waiting-queue release alone — the first-phase
cheap-relay branch of the comparison loop never contributes a message. -/
theorem claim_C10_spontaneous {n : Nat} (ids : Fin n → Nat) :
    (∀ i : Fin n,
      (iterRounds ids 1).node i = ⟨ids i, .participating, .val (ids i), [], false⟩ ∧
      (iterRounds ids 1).msgs i = [(ids (rightIdx i), 1)]) ∧
    (∀ (k : Nat) (i : Fin n), ((iterRounds ids k).node i).status ≠ .relay ∧
      ((iterRounds ids k).node i).min ≠ .inf) ∧
    (∀ (k : Nat) (i : Fin n), 1 ≤ k →
      (stepNode k ((iterRounds ids k).node i) ((iterRounds ids k).msgs i)).2 =
        (release k (((iterRounds ids k).msgs i).foldl (compareMsg k)
          ((iterRounds ids k).node i, [])).1.waiting).1) := by
  refine ⟨fun i => ⟨iterRounds_one_node ids i, iterRounds_one_msgs ids i⟩, ?_, ?_⟩
  · intro k i
    match k with
    | 0 =>
      constructor
      · intro hc
        simp [iterRounds, initConfig, NodeSt.start] at hc
      · intro hc
        simp [iterRounds, initConfig, NodeSt.start] at hc
    | k + 1 =>
      have h := Awake_iter ids k
      refine ⟨h.not_relay i, ?_⟩
      obtain ⟨μ, hμ⟩ := (h i).2
      rw [hμ]
      intro hc
      simp at hc
  · intro k i hk
    match k, hk with
    | k + 1, _ =>
      have h := Awake_iter ids k
      exact stepNode_S_release (k + 1) _ _ (h.not_asleep i) (h.not_relay i)

/-- **C10 witness.** -/
theorem claim_C10_spontaneous_witness :
    (stepNode 1 ((iterRounds (fun _ : Fin 1 => 5) 1).node 0)
        ((iterRounds (fun _ : Fin 1 => 5) 1).msgs 0)).2 =
      (release 1 (((iterRounds (fun _ : Fin 1 => 5) 1).msgs 0).foldl (compareMsg 1)
        ((iterRounds (fun _ : Fin 1 => 5) 1).node 0, [])).1.waiting).1 :=
  (claim_C10_spontaneous (fun _ : Fin 1 => 5)).2.2 1 0 (by decide)

/-! ### Claim C7: the known minimum never increases once set -/

/-- **C7.** For an awake node (one whose `min` has been set), a round never
increases `min`: the value after the whole computation event is a number no
larger than before. Moreover each individual comparison step either leaves
`min` unchanged or assigns a strictly smaller number, and from the relay
activation value `+∞` any assignment produces a finite number. -/
theorem claim_C7_min_monotone :
    (∀ (now : Nat) (st : NodeSt) (R : List Msg) (μ : Nat),
      st.min = .val μ → st.status ≠ .asleep →
        ∃ μ', (stepNode now st R).1.min = .val μ' ∧ μ' ≤ μ) ∧
    (∀ (now : Nat) (acc : NodeSt × List Msg) (msg : Msg) (v : Nat),
      acc.1.min = .val v →
        (compareMsg now acc msg).1.min = .val v ∨
          ∃ v', (compareMsg now acc msg).1.min = .val v' ∧ v' < v) ∧
    (∀ (now : Nat) (acc : NodeSt × List Msg) (msg : Msg),
      acc.1.min = .inf →
        (compareMsg now acc msg).1.min = .inf ∨
          ∃ v', (compareMsg now acc msg).1.min = .val v') := by
  refine ⟨?_, ?_, ?_⟩
  · intro now st R μ hmin hawake
    rw [stepNode_min, activate_not_asleep st R hawake]
    exact foldCompare_min_only now R (st, []) μ hmin
  · intro now acc msg v hv
    rcases compareMsg_min now acc msg with hsame | ⟨hset, hacc⟩
    · exact Or.inl (hsame.trans hv)
    · rw [hv] at hacc
      exact Or.inr ⟨msg.1, hset, by simpa [MinVal.acceptLt] using hacc⟩
  · intro now acc msg hv
    rcases compareMsg_min now acc msg with hsame | ⟨hset, _⟩
    · exact Or.inl (hsame.trans hv)
    · exact Or.inr ⟨msg.1, hset⟩

/-- **C7 witness.** -/
theorem claim_C7_min_monotone_witness :
    (∃ μ', (stepNode 1 ⟨3, .participating, .val 3, [], false⟩ [(1, 1)]).1.min = .val μ' ∧
      μ' ≤ 3) ∧
    ((compareMsg 1 (⟨3, .participating, .val 3, [], false⟩, []) (1, 1)).1.min = .val 3 ∨
      ∃ v', (compareMsg 1 (⟨3, .participating, .val 3, [], false⟩, []) (1, 1)).1.min = .val v' ∧
        v' < 3) ∧
    ((compareMsg 1 (⟨3, .relay, .inf, [], false⟩, []) (1, 1)).1.min = .inf ∨
      ∃ v', (compareMsg 1 (⟨3, .relay, .inf, [], false⟩, []) (1, 1)).1.min = .val v') := by
  refine ⟨?_, ?_, ?_⟩
  · exact claim_C7_min_monotone.1 1 ⟨3, .participating, .val 3, [], false⟩ [(1, 1)] 3 rfl
      (by decide)
  · exact claim_C7_min_monotone.2.1 1 (⟨3, .participating, .val 3, [], false⟩, []) (1, 1) 3 rfl
  · exact claim_C7_min_monotone.2.2 1 (⟨3, .relay, .inf, [], false⟩, []) (1, 1) rfl

/-! ### Claim C4: the initiator only reorders processing and cannot matter -/

theorem leftIdx_rightIdx {n : Nat} (j : Fin n) : leftIdx (rightIdx j) = j := by
  apply Fin.ext
  show ((j.val + 1) % n + n - 1) % n = j.val
  have hn : 0 < n := j.pos
  have hj : j.val < n := j.isLt
  rcases Nat.lt_or_ge (j.val + 1) n with h | h
  · rw [Nat.mod_eq_of_lt h]
    have h2 : j.val + 1 + n - 1 = j.val + n := by omega
    rw [h2, Nat.add_mod_right, Nat.mod_eq_of_lt hj]
  · have hjn : j.val + 1 = n := by omega
    rw [hjn, Nat.mod_self]
    have h2 : 0 + n - 1 = n - 1 := by omega
    rw [h2, Nat.mod_eq_of_lt (by omega)]
    omega

theorem rightIdx_leftIdx {n : Nat} (i : Fin n) : rightIdx (leftIdx i) = i := by
  apply Fin.ext
  show ((i.val + n - 1) % n + 1) % n = i.val
  have hn : 0 < n := i.pos
  have hi : i.val < n := i.isLt
  rcases Nat.eq_zero_or_pos i.val with h0 | hpos
  · rw [h0]
    have h1 : (0 + n - 1) % n = n - 1 := by
      rw [Nat.zero_add, Nat.mod_eq_of_lt (by omega)]
    rw [h1]
    have h2 : n - 1 + 1 = n := by omega
    rw [h2, Nat.mod_self]
  · have h1 : (i.val + n - 1) % n = i.val - 1 := by
      have h3 : i.val + n - 1 = (i.val - 1) + n := by omega
      rw [h3, Nat.add_mod_right, Nat.mod_eq_of_lt (by omega)]
    rw [h1]
    have h2 : i.val - 1 + 1 = i.val := by omega
    rw [h2, Nat.mod_eq_of_lt hi]

/-- Result of the per-node loop on any duplicate-free order: each processed
node is stepped against the snapshot, each queue receives the `S` of its right
neighbor (if processed), and activity is the disjunction over processed
nodes. -/
theorem roundGo_foldl_char {n : Nat} (now : Nat) (cur : Fin n → List Msg)
    (base : Fin n → NodeSt) :
    ∀ (order : List (Fin n)), order.Nodup →
      ∀ (nodes : Fin n → NodeSt) (out : Fin n → List Msg) (act : Bool),
        (∀ i ∈ order, nodes i = base i) →
        (∀ j, (order.foldl (roundGo now cur) (nodes, out, act)).1 j =
          if j ∈ order then (stepNode now (base j) (cur j)).1 else nodes j) ∧
        (∀ j, (order.foldl (roundGo now cur) (nodes, out, act)).2.1 j =
          if rightIdx j ∈ order then
            out j ++ (stepNode now (base (rightIdx j)) (cur (rightIdx j))).2
          else out j) ∧
        ((order.foldl (roundGo now cur) (nodes, out, act)).2.2 =
          (act || order.any fun i => decide ((stepNode now (base i) (cur i)).2 ≠ [] ∨
            (stepNode now (base i) (cur i)).1.waiting ≠ []))) := by
  intro order
  induction order with
  | nil =>
    intro _ nodes out act _
    refine ⟨fun j => by simp, fun j => by simp, by simp⟩
  | cons i rest ih =>
    intro hnd nodes out act hagree
    have hi_base : nodes i = base i := hagree i (List.mem_cons_self _ _)
    have hinotr : i ∉ rest := (List.nodup_cons.mp hnd).1
    have hndr : rest.Nodup := (List.nodup_cons.mp hnd).2
    rw [List.foldl_cons]
    set r := stepNode now (base i) (cur i) with hr
    have hgo : roundGo now cur (nodes, out, act) i =
        (Function.update nodes i r.1,
          if r.2 ≠ [] ∨ r.1.waiting ≠ [] then
            Function.update out (leftIdx i) (out (leftIdx i) ++ r.2)
          else out,
          if r.2 ≠ [] ∨ r.1.waiting ≠ [] then true else act) := by
      unfold roundGo
      dsimp only
      rw [hi_base, ← hr]
      split
      · rfl
      · rfl
    rw [hgo]
    set out1 := if r.2 ≠ [] ∨ r.1.waiting ≠ [] then
      Function.update out (leftIdx i) (out (leftIdx i) ++ r.2) else out with hout1
    set act1 := if r.2 ≠ [] ∨ r.1.waiting ≠ [] then true else act with hact1
    have hagree' : ∀ x ∈ rest, Function.update nodes i r.1 x = base x := by
      intro x hx
      have hxi : x ≠ i := fun hc => hinotr (by rw [← hc]; exact hx)
      rw [Function.update_noteq hxi]
      exact hagree x (List.mem_cons_of_mem _ hx)
    obtain ⟨g1, g2, g3⟩ := ih hndr (Function.update nodes i r.1) out1 act1 hagree'
    refine ⟨?_, ?_, ?_⟩
    · intro j
      rw [g1 j]
      by_cases hjr : j ∈ rest
      · rw [if_pos hjr, if_pos (List.mem_cons_of_mem i hjr)]
      · by_cases hji : j = i
        · subst hji
          rw [if_neg hjr, if_pos (List.mem_cons_self j rest), Function.update_same]
        · have hjc : j ∉ i :: rest := by
            intro hc
            rcases List.mem_cons.mp hc with hc | hc
            · exact hji hc
            · exact hjr hc
          rw [if_neg hjr, if_neg hjc, Function.update_noteq hji]
    · intro j
      rw [g2 j]
      by_cases hrr : rightIdx j ∈ rest
      · have hrni : rightIdx j ≠ i := fun hc => hinotr (by rw [← hc]; exact hrr)
        have hlj : j ≠ leftIdx i := by
          intro hc
          apply hrni
          rw [hc, rightIdx_leftIdx]
        have hout1j : out1 j = out j := by
          rw [hout1]
          split
          · rw [Function.update_noteq hlj]
          · rfl
        rw [if_pos hrr, if_pos (List.mem_cons_of_mem i hrr), hout1j]
      · by_cases hri : rightIdx j = i
        · have hlj : leftIdx i = j := by rw [← hri, leftIdx_rightIdx]
          have hout1j : out1 j = out j ++ r.2 := by
            rw [hout1]
            split
            · rw [← hlj, Function.update_same]
            · rename_i hq
              push_neg at hq
              rw [hq.1, List.append_nil]
          have hmem : rightIdx j ∈ i :: rest := by
            rw [hri]
            exact List.mem_cons_self _ _
          rw [if_neg hrr, if_pos hmem, hout1j, hri, ← hr]
        · have hmem : rightIdx j ∉ i :: rest := by
            intro hc
            rcases List.mem_cons.mp hc with hc | hc
            · exact hri hc
            · exact hrr hc
          have hlj : j ≠ leftIdx i := by
            intro hc
            apply hri
            rw [hc, rightIdx_leftIdx]
          have hout1j : out1 j = out j := by
            rw [hout1]
            split
            · rw [Function.update_noteq hlj]
            · rfl
          rw [if_neg hrr, if_neg hmem, hout1j]
    · rw [g3, hact1, List.any_cons, ← hr]
      by_cases hcond : r.2 ≠ [] ∨ r.1.waiting ≠ []
      · simp [hcond]
      · simp [hcond]

/-- On a duplicate-free order containing every node, the ordered round
coincides with the order-independent round: within a round every node reads
only its own snapshot and writes only its own left neighbor's next queue, so
the processing order cannot affect the result. -/
theorem stepRoundOrdered_eq_stepRound {n : Nat} (now : Nat) (order : List (Fin n))
    (c : Config n) (hnd : order.Nodup) (hall : ∀ i, i ∈ order) :
    stepRoundOrdered now order c = stepRound now c := by
  obtain ⟨g1, g2, g3⟩ := roundGo_foldl_char now c.msgs c.node order hnd c.node
    (fun _ => []) false (fun _ _ => rfl)
  unfold stepRoundOrdered stepRound
  dsimp only
  have hbool : ∀ b1 b2 : Bool, (b1 = true ↔ b2 = true) → b1 = b2 := by decide
  refine Prod.ext ?_ ?_
  · show Config.mk _ _ = Config.mk _ _
    have hn : (fun j => (order.foldl (roundGo now c.msgs) (c.node, fun _ => [], false)).1 j) =
        fun j => (stepNode now (c.node j) (c.msgs j)).1 := by
      funext j
      rw [g1 j, if_pos (hall j)]
    have hm : (fun j => (order.foldl (roundGo now c.msgs) (c.node, fun _ => [], false)).2.1 j) =
        fun j => (stepNode now (c.node (rightIdx j)) (c.msgs (rightIdx j))).2 := by
      funext j
      rw [g2 j, if_pos (hall (rightIdx j)), List.nil_append]
    exact congrArg₂ Config.mk hn hm
  · show (order.foldl (roundGo now c.msgs) (c.node, fun _ => [], false)).2.2 = _
    rw [g3, Bool.false_or]
    apply hbool
    rw [List.any_eq_true, List.any_eq_true]
    constructor
    · rintro ⟨i, -, hi⟩
      exact ⟨i, List.mem_finRange i, hi⟩
    · rintro ⟨i, -, hi⟩
      exact ⟨i, hall i, hi⟩

theorem runOrdered_eq_runSteps {n : Nat} (order : List (Fin n)) (hnd : order.Nodup)
    (hall : ∀ i, i ∈ order) :
    ∀ (fuel now : Nat) (c : Config n),
      runOrdered order fuel now c = runSteps fuel now c := by
  intro fuel
  induction fuel with
  | zero => intro now c; rfl
  | succ fuel ih =>
    intro now c
    show (let r := stepRoundOrdered now order c;
      if r.2 then runOrdered order fuel (now + 1) r.1 else (r.1, true)) = _
    rw [show (runSteps (fuel + 1) now c) = (let r := stepRound now c;
      if r.2 then runSteps fuel (now + 1) r.1 else (r.1, true)) from rfl]
    dsimp only
    rw [stepRoundOrdered_eq_stepRound now order c hnd hall]
    by_cases hact : (stepRound now c).2 = true
    · rw [if_pos hact, if_pos hact, ih]
    · rw [if_neg hact, if_neg hact]

theorem electionOrder_nodup {n : Nat} (ids : Fin n → Nat) (initiator : Nat) :
    (electionOrder ids initiator).Nodup := by
  unfold electionOrder
  refine List.Nodup.append ((List.nodup_finRange n).filter _)
    ((List.nodup_finRange n).filter _) ?_
  intro a ha hb
  have h1 := (List.mem_filter.mp ha).2
  have h2 := (List.mem_filter.mp hb).2
  rw [decide_eq_true_eq] at h1
  simp [h1] at h2

theorem electionOrder_complete {n : Nat} (ids : Fin n → Nat) (initiator : Nat) :
    ∀ i, i ∈ electionOrder ids initiator := by
  intro i
  unfold electionOrder
  by_cases h : ids i = initiator
  · exact List.mem_append_left _ (List.mem_filter.mpr ⟨List.mem_finRange i, by simp [h]⟩)
  · exact List.mem_append_right _ (List.mem_filter.mpr ⟨List.mem_finRange i, by simp [h]⟩)

/-- **C4.** For a fixed ring, the choice of initiator identifier — which only
moves the matching nodes to the front of the per-round processing order —
cannot affect anything: two elections with arbitrary different initiators
produce identical final configurations (the same leader flags, statuses, `min`
values and queues at every node) and halt the same way. -/
theorem claim_C4_initiator_irrelevant {n : Nat} (ids : Fin n → Nat)
    (max_rounds a b : Nat) :
    run_election ids max_rounds a = run_election ids max_rounds b := by
  unfold run_election
  rw [runOrdered_eq_runSteps _ (electionOrder_nodup ids a) (electionOrder_complete ids a),
    runOrdered_eq_runSteps _ (electionOrder_nodup ids b) (electionOrder_complete ids b)]

/-! ### Claim C5: the scheduler halts exactly on quiescence or on the cap -/

/-- **C5.** The round loop stops in exactly two situations. If a round reports
no activity (every node's outgoing `S` and waiting queue empty), the loop stops
right after that round — whatever amount of fuel up to the cap remains — and
flags the stop as quiescence; if the round reports activity, the loop continues
into the next round while the cap allows it; and when the round counter reaches
the cap, the loop stops with the quiescence flag unset. -/
theorem claim_C5_halting {n : Nat} :
    (∀ (order : List (Fin n)) (fuel now : Nat) (c : Config n),
      (stepRoundOrdered now order c).2 = false → 1 ≤ fuel →
        runOrdered order fuel now c = ((stepRoundOrdered now order c).1, true)) ∧
    (∀ (order : List (Fin n)) (fuel now : Nat) (c : Config n),
      (stepRoundOrdered now order c).2 = true →
        runOrdered order (fuel + 1) now c =
          runOrdered order fuel (now + 1) (stepRoundOrdered now order c).1) ∧
    (∀ (order : List (Fin n)) (now : Nat) (c : Config n),
      runOrdered order 0 now c = (c, false)) := by
  refine ⟨?_, ?_, ?_⟩
  · intro order fuel now c hquiet hfuel
    match fuel with
    | fuel + 1 => simp [runOrdered, hquiet]
  · intro order fuel now c hact
    simp [runOrdered, hact]
  · intro order now c
    rfl

/-- **C5 witness.** A quiescent one-node configuration stops the loop at once
with plenty of fuel left, and the fresh configuration (which has activity in
round 0) makes the loop recurse. -/
theorem claim_C5_halting_witness :
    runOrdered [(0 : Fin 1)] 7 3
      ⟨fun _ => ⟨5, .elected, .val 5, [], true⟩, fun _ => []⟩ =
      ((stepRoundOrdered 3 [(0 : Fin 1)]
        ⟨fun _ => ⟨5, .elected, .val 5, [], true⟩, fun _ => []⟩).1, true) ∧
    runOrdered [(0 : Fin 1)] 3 0 (initConfig fun _ : Fin 1 => 5) =
      runOrdered [(0 : Fin 1)] 2 1
        (stepRoundOrdered 0 [(0 : Fin 1)] (initConfig fun _ : Fin 1 => 5)).1 := by
  constructor
  · exact claim_C5_halting.1 [(0 : Fin 1)] 7 3
      ⟨fun _ => ⟨5, .elected, .val 5, [], true⟩, fun _ => []⟩ (by decide) (by decide)
  · exact claim_C5_halting.2.1 [(0 : Fin 1)] 2 0 (initConfig fun _ : Fin 1 => 5) (by decide)

/-! ### Ring positions: leftward travel and rightward distance -/

/-- The node reached from `a` after `k` hops to the left (the direction
messages travel, since each node sends `S` to its left neighbor). -/
def leftPow {n : Nat} (k : Nat) (a : Fin n) : Fin n := leftIdx^[k] a

/-- The node reached from `a` after `k` hops to the right. -/
def rightPow {n : Nat} (k : Nat) (a : Fin n) : Fin n := rightIdx^[k] a

/-- The number of right-steps leading from `a` to `b`, canonically below `n`. -/
def distTo {n : Nat} (a b : Fin n) : Nat := (b.val + n - a.val) % n

theorem rightPow_val {n : Nat} (k : Nat) (a : Fin n) :
    (rightPow k a).val = (a.val + k) % n := by
  induction k with
  | zero =>
    show a.val = (a.val + 0) % n
    rw [Nat.add_zero, Nat.mod_eq_of_lt a.isLt]
  | succ k ih =>
    show (rightIdx^[k + 1] a).val = _
    rw [Function.iterate_succ_apply']
    show ((rightIdx^[k] a).val + 1) % n = _
    have hik : (rightIdx^[k] a).val = (a.val + k) % n := ih
    rw [hik, Nat.mod_add_mod, Nat.add_assoc]

theorem leftPow_succ {n : Nat} (k : Nat) (a : Fin n) :
    leftPow (k + 1) a = leftIdx (leftPow k a) := Function.iterate_succ_apply' leftIdx k a

theorem rightPow_leftPow {n : Nat} (k : Nat) (a : Fin n) :
    rightPow k (leftPow k a) = a := by
  induction k with
  | zero => rfl
  | succ k ih =>
    show rightIdx^[k + 1] (leftIdx^[k + 1] a) = a
    rw [Function.iterate_succ_apply' leftIdx, Function.iterate_succ_apply rightIdx]
    rw [rightIdx_leftIdx]
    exact ih

theorem distTo_lt {n : Nat} (a b : Fin n) : distTo a b < n :=
  Nat.mod_lt _ a.pos

theorem rightPow_distTo {n : Nat} (a b : Fin n) : rightPow (distTo a b) a = b := by
  apply Fin.ext
  rw [rightPow_val]
  show (a.val + (b.val + n - a.val) % n) % n = b.val
  rw [Nat.add_mod_mod]
  have h1 : a.val + (b.val + n - a.val) = b.val + n := by
    have := a.isLt
    omega
  rw [h1, Nat.add_mod_right, Nat.mod_eq_of_lt b.isLt]

theorem distTo_unique {n : Nat} (a b : Fin n) (k : Nat) (hk : rightPow k a = b)
    (hlt : k < n) : k = distTo a b := by
  have h1 : (a.val + k) % n = b.val := by
    rw [← rightPow_val, hk]
  have h2 : (a.val + distTo a b) % n = b.val := by
    rw [← rightPow_val, rightPow_distTo]
  have h3 : k % n = distTo a b % n := by
    have := Nat.ModEq.add_left_cancel' a.val (h1.trans h2.symm)
    exact this
  rw [Nat.mod_eq_of_lt hlt, Nat.mod_eq_of_lt (distTo_lt a b)] at h3
  exact h3

theorem distTo_self {n : Nat} (a : Fin n) : distTo a a = 0 :=
  (distTo_unique a a 0 rfl a.pos).symm

theorem distTo_eq_zero {n : Nat} (a b : Fin n) (h : distTo a b = 0) : a = b := by
  have := rightPow_distTo a b
  rw [h] at this
  exact this

theorem distTo_right_inj {n : Nat} (a b p : Fin n) (h : distTo a p = distTo b p) :
    a = b := by
  have h1 : rightPow (distTo a p) a = p := rightPow_distTo a p
  have h2 : rightPow (distTo a p) b = p := by
    rw [h]
    exact rightPow_distTo b p
  have hinj : Function.Injective (rightIdx : Fin n → Fin n) := by
    intro x y hxy
    have := congrArg leftIdx hxy
    rwa [leftIdx_rightIdx, leftIdx_rightIdx] at this
  exact hinj.iterate (distTo a p) (h1.trans h2.symm)

theorem distTo_leftIdx {n : Nat} (x p : Fin n) (h : distTo x p + 1 < n) :
    distTo (leftIdx x) p = distTo x p + 1 := by
  have h1 : rightPow (distTo x p + 1) (leftIdx x) = p := by
    show rightIdx^[distTo x p + 1] (leftIdx x) = p
    rw [Function.iterate_succ_apply, rightIdx_leftIdx]
    exact rightPow_distTo x p
  exact (distTo_unique (leftIdx x) p (distTo x p + 1) h1 h).symm

theorem distTo_leftPow {n : Nat} (k : Nat) (w : Fin n) (hk : k < n) :
    distTo (leftPow k w) w = k :=
  (distTo_unique (leftPow k w) w k (rightPow_leftPow k w) hk).symm

theorem leftPow_n_eq {n : Nat} (w : Fin n) : leftPow n w = w := by
  have h1 : rightPow n (leftPow n w) = leftPow n w := by
    apply Fin.ext
    rw [rightPow_val, Nat.add_mod_right, Nat.mod_eq_of_lt (leftPow n w).isLt]
  have h2 := rightPow_leftPow n w
  rw [h1] at h2
  exact h2

theorem ne_of_distTo_pos {n : Nat} (q w : Fin n) (h : 1 ≤ distTo q w) : q ≠ w := by
  intro hc
  rw [hc, distTo_self] at h
  omega

/-! ### Counting occurrences of a candidate value in queues -/

def msgCount (v : Nat) (l : List Msg) : Nat := l.countP fun ms => ms.1 == v

def waitCount (v : Nat) (l : List WaitEntry) : Nat := l.countP fun e => e.1 == v

theorem countP_filter_split {α : Type} (p q : α → Bool) (l : List α) :
    (l.filter q).countP p + (l.filter fun a => !q a).countP p = l.countP p := by
  induction l with
  | nil => rfl
  | cons a rest ih =>
    rcases Bool.eq_false_or_eq_true (q a) with hq | hq
    · rw [List.filter_cons, List.filter_cons, if_pos (by rw [hq]),
        if_neg (by rw [hq]; simp), List.countP_cons, List.countP_cons]
      omega
    · rw [List.filter_cons, List.filter_cons, if_neg (by rw [hq]; simp),
        if_pos (by rw [hq]; rfl), List.countP_cons, List.countP_cons]
      omega


theorem msgCount_eq_zero {v : Nat} {l : List Msg} (h : msgCount v l = 0) :
    ∀ hh : Nat, (v, hh) ∉ l := by
  intro hh hc
  have := List.countP_eq_zero.mp h _ hc
  simp at this

theorem waitCount_eq_zero {v : Nat} {l : List WaitEntry} (h : waitCount v l = 0) :
    ∀ hh t : Nat, (v, hh, t) ∉ l := by
  intro hh t hc
  have := List.countP_eq_zero.mp h _ hc
  simp at this

theorem msgCount_pos_of_mem {v hh : Nat} {l : List Msg} (h : (v, hh) ∈ l) :
    1 ≤ msgCount v l := by
  unfold msgCount
  have hp : 0 < l.countP fun ms => ms.1 == v :=
    List.countP_pos.mpr ⟨(v, hh), h, by simp⟩
  omega

theorem waitCount_pos_of_mem {v hh t : Nat} {l : List WaitEntry} (h : (v, hh, t) ∈ l) :
    1 ≤ waitCount v l := by
  unfold waitCount
  have hp : 0 < l.countP fun e => e.1 == v :=
    List.countP_pos.mpr ⟨(v, hh, t), h, by simp⟩
  omega

/-- Per-node conservation of a candidate value through the waiting-queue
release: the copies emitted in `S` plus the copies still waiting equal the
copies that were in the (post-comparison) waiting queue. -/
theorem release_count (now : Nat) (B : Nat) (W : List WaitEntry) :
    msgCount B (release now W).1 + waitCount B (release now W).2 = waitCount B W := by
  rw [release_eq]
  unfold msgCount waitCount
  dsimp only
  rw [List.countP_map]
  have h1 : ((fun ms => ms.1 == B) ∘ fun (e : WaitEntry) => ((e.1, e.2.1) : Msg)) =
      fun (e : WaitEntry) => e.1 == B := rfl
  rw [h1]
  exact countP_filter_split _ _ W

/-- Where an emitted message can come from: a node that is awake and not a
relay only emits messages released from its waiting queue, and each of those
was either already waiting or was accepted this round from the inbound set
(with a value below the node's previous minimum). -/
theorem stepNode_S_decomp (now : Nat) (st : NodeSt) (R : List Msg) (μ : Nat)
    (hmin : st.min = .val μ) (hasleep : st.status ≠ .asleep) (hrel : st.status ≠ .relay)
    (m h : Nat) (hmem : (m, h) ∈ (stepNode now st R).2) :
    (∃ t, (m, h, t) ∈ st.waiting) ∨ ((∃ hh, (m, hh) ∈ R) ∧ m < μ) := by
  rw [stepNode_S_release now st R hasleep hrel, release_eq] at hmem
  obtain ⟨e, he, heq⟩ := List.mem_map.mp hmem
  have he' := (List.mem_filter.mp he).1
  obtain ⟨extra, hfw, hex⟩ := foldCompare_waiting_val now R st [] μ hmin hrel
  rw [hfw] at he'
  have hm1 : e.1 = m := congrArg Prod.fst heq
  have hh1 : e.2.1 = h := congrArg Prod.snd heq
  rcases List.mem_append.mp he' with hmem2 | hmem2
  · left
    refine ⟨e.2.2, ?_⟩
    rw [← hm1, ← hh1]
    exact hmem2
  · right
    obtain ⟨⟨hh, hmm⟩, -, -, hlt⟩ := hex e hmem2
    refine ⟨⟨hh, ?_⟩, ?_⟩
    · rw [← hm1]
      exact hmm
    · rw [← hm1]
      exact hlt

/-- Where a kept waiting entry can come from, under the same conditions. -/
theorem stepNode_wait_decomp (now : Nat) (st : NodeSt) (R : List Msg) (μ : Nat)
    (hmin : st.min = .val μ) (hasleep : st.status ≠ .asleep) (hrel : st.status ≠ .relay)
    (m h t : Nat) (hmem : (m, h, t) ∈ (stepNode now st R).1.waiting) :
    (m, h, t) ∈ st.waiting ∨ ((∃ hh, (m, hh) ∈ R) ∧ h = 2 ∧ t = now ∧ m < μ) := by
  rw [stepNode_waiting_live now st R hasleep, release_eq] at hmem
  have he' := (List.mem_filter.mp hmem).1
  obtain ⟨extra, hfw, hex⟩ := foldCompare_waiting_val now R st [] μ hmin hrel
  rw [hfw] at he'
  rcases List.mem_append.mp he' with hmem2 | hmem2
  · exact Or.inl hmem2
  · obtain ⟨⟨hh, hmm⟩, h2, h3, hlt⟩ := hex (m, h, t) hmem2
    exact Or.inr ⟨⟨hh, hmm⟩, h2, h3, hlt⟩

/-! ### The global election invariant -/

/-- No message carrying the candidate value `v` is anywhere in flight. -/
def valFree {n : Nat} (v : Nat) (c : Config n) : Prop :=
  (∀ q, msgCount v (c.msgs q) = 0) ∧ (∀ q, waitCount v ((c.node q).waiting) = 0)

/-- The minimum-id node `w` is elected and its announcement has been consumed. -/
def ElectedState {n : Nat} (ids : Fin n → Nat) (w : Fin n) (c : Config n) : Prop :=
  (c.node w).status = .elected ∧ valFree (ids w) c

/-- The minimum-id announcement is still circulating: nobody is elected, and
the unique copy of the value `ids w` sits `k` hops to the left of `w` — either
in the inbound queue there (`k ≤ n`, where `k = n` means it has come full
circle back to `w`) or in the waiting queue there (`k ≤ n-1`) — and every node
it has not yet passed still knows a minimum strictly above `ids w`. -/
def PendingState {n : Nat} (ids : Fin n → Nat) (w : Fin n) (c : Config n) : Prop :=
  (c.node w).status ≠ .elected ∧
  ∃ k, 1 ≤ k ∧ k ≤ n ∧
    ((msgCount (ids w) (c.msgs (leftPow k w)) = 1 ∧
      (∀ q, q ≠ leftPow k w → msgCount (ids w) (c.msgs q) = 0) ∧
      (∀ q, waitCount (ids w) ((c.node q).waiting) = 0) ∧
      (∀ q, k ≤ distTo q w → ∀ μ, (c.node q).min = .val μ → ids w < μ)) ∨
    (k ≤ n - 1 ∧
      waitCount (ids w) ((c.node (leftPow k w)).waiting) = 1 ∧
      (∀ q, msgCount (ids w) (c.msgs q) = 0) ∧
      (∀ q, q ≠ leftPow k w → waitCount (ids w) ((c.node q).waiting) = 0) ∧
      (∀ q, k + 1 ≤ distTo q w → ∀ μ, (c.node q).min = .val μ → ids w < μ)))

/-- The election invariant, relative to the position `w` of the minimum
identifier. It holds after every round from round 0 on and pins down
everything claims C1 and C6 need: identifiers are fixed; every node is awake
with a numeric `min` between the global minimum and its own id; the leader
flag tracks the `elected` status; all message values are identifiers; the
announcement of a non-minimal node `p` has never travelled past `w` and in
particular never returns to `p`; only `w` can be elected and `w` is never a
loser; and the minimum announcement is either still circulating or consumed by
the election of `w`. -/
structure Inv {n : Nat} (ids : Fin n → Nat) (w : Fin n) (c : Config n) : Prop where
  ids_eq : ∀ i, (c.node i).id = ids i
  status_ok : ∀ i, (c.node i).status = .participating ∨
    (c.node i).status = .not_elected ∨ (c.node i).status = .elected
  min_ok : ∀ i, ∃ μ, (c.node i).min = .val μ ∧ ids w ≤ μ ∧ μ ≤ ids i
  leader_ok : ∀ i, ((c.node i).is_leader = true ↔ (c.node i).status = .elected)
  vals_msgs : ∀ (q : Fin n) (m h : Nat), (m, h) ∈ c.msgs q → ∃ p, ids p = m
  vals_wait : ∀ (q : Fin n) (m h t : Nat), (m, h, t) ∈ (c.node q).waiting → ∃ p, ids p = m
  nonret_msgs : ∀ (q p : Fin n) (h : Nat), p ≠ w → (ids p, h) ∈ c.msgs q →
    1 ≤ distTo q p ∧ distTo q p ≤ distTo w p
  nonret_wait : ∀ (q p : Fin n) (h t : Nat), p ≠ w → (ids p, h, t) ∈ (c.node q).waiting →
    1 ≤ distTo q p ∧ distTo q p < distTo w p
  others_quiet : ∀ p, p ≠ w → (c.node p).status ≠ .elected
  w_not_loser : (c.node w).status ≠ .not_elected
  gm_state : ElectedState ids w c ∨ PendingState ids w c

theorem two_le_of_ne {n : Nat} (p w : Fin n) (hpw : p ≠ w) : 2 ≤ n := by
  by_contra hc
  have h1 : n = 1 := by
    have := p.pos
    omega
  apply hpw
  apply Fin.ext
  have hp := p.isLt
  have hw2 := w.isLt
  omega

theorem distTo_rightIdx_self {n : Nat} (q : Fin n) (hn : 2 ≤ n) :
    distTo q (rightIdx q) = 1 := by
  have h1 : rightPow 1 q = rightIdx q := by
    show rightIdx^[1] q = rightIdx q
    rw [Function.iterate_one]
  exact (distTo_unique q (rightIdx q) 1 h1 (by omega)).symm

theorem distTo_pos_of_ne {n : Nat} (a b : Fin n) (h : a ≠ b) : 1 ≤ distTo a b := by
  rcases Nat.eq_zero_or_pos (distTo a b) with h0 | h0
  · exact absurd (distTo_eq_zero a b h0) h
  · omega

/-- The invariant holds after round 0. -/
theorem Inv_base {n : Nat} (ids : Fin n → Nat) (w : Fin n)
    (hinj : Function.Injective ids) (hw : ∀ i, ids w ≤ ids i) :
    Inv ids w (iterRounds ids 1) := by
  constructor
  · intro i
    rw [iterRounds_one_node]
  · intro i
    rw [iterRounds_one_node]
    exact Or.inl rfl
  · intro i
    rw [iterRounds_one_node]
    exact ⟨ids i, rfl, hw i, le_refl _⟩
  · intro i
    rw [iterRounds_one_node]
    simp
  · intro q m h hmem
    rw [iterRounds_one_msgs] at hmem
    rcases List.mem_singleton.mp hmem with hc
    exact ⟨rightIdx q, (congrArg Prod.fst hc).symm⟩
  · intro q m h t hmem
    rw [iterRounds_one_node] at hmem
    simp at hmem
  · intro q p h hpw hmem
    rw [iterRounds_one_msgs] at hmem
    have hc := List.mem_singleton.mp hmem
    have hpq : p = rightIdx q := hinj (congrArg Prod.fst hc)
    have hn2 : 2 ≤ n := two_le_of_ne p w hpw
    have hne : rightIdx q ≠ w := by rw [← hpq]; exact hpw
    rw [hpq, distTo_rightIdx_self q hn2]
    exact ⟨le_refl _, distTo_pos_of_ne w (rightIdx q) (Ne.symm hne)⟩
  · intro q p h t hpw hmem
    rw [iterRounds_one_node] at hmem
    simp at hmem
  · intro p hpw
    rw [iterRounds_one_node]
    simp
  · rw [iterRounds_one_node]
    simp
  · refine Or.inr ⟨by rw [iterRounds_one_node]; simp, 1, le_refl _, w.pos, Or.inl ?_⟩
    have hloc : leftPow 1 w = leftIdx w := by
      show leftIdx^[1] w = leftIdx w
      rw [Function.iterate_one]
    refine ⟨?_, ?_, ?_, ?_⟩
    · rw [hloc, iterRounds_one_msgs, rightIdx_leftIdx]
      simp [msgCount]
    · intro q hq
      rw [iterRounds_one_msgs]
      have hne : ids (rightIdx q) ≠ ids w := by
        intro hc
        apply hq
        have h1 : rightIdx q = w := hinj hc
        rw [hloc, ← h1, leftIdx_rightIdx]
      simp [msgCount, hne]
    · intro q
      rw [iterRounds_one_node]
      rfl
    · intro q hq μ hμ
      rw [iterRounds_one_node] at hμ
      have hqw : q ≠ w := ne_of_distTo_pos q w hq
      have hμq : μ = ids q := by
        have := hμ
        injection this with h1
        exact h1.symm
      rw [hμq]
      have : ids q ≠ ids w := fun hc => hqw (hinj hc)
      have := hw q
      omega

set_option maxHeartbeats 1000000 in
theorem Inv_step {n : Nat} (ids : Fin n → Nat) (w : Fin n)
    (hinj : Function.Injective ids) (hw : ∀ i, ids w ≤ ids i)
    (now : Nat) (c : Config n) (hc : Inv ids w c) :
    Inv ids w (stepRound now c).1 := by
  have hasleep : ∀ i, (c.node i).status ≠ .asleep := by
    intro i
    rcases hc.status_ok i with h | h | h <;> rw [h] <;> decide
  have hrel : ∀ i, (c.node i).status ≠ .relay := by
    intro i
    rcases hc.status_ok i with h | h | h <;> rw [h] <;> decide
  have hμw : (c.node w).min = .val (ids w) := by
    obtain ⟨μ, h1, h2, h3⟩ := hc.min_ok w
    have h4 : μ = ids w := le_antisymm h3 h2
    rw [h1, h4]
  have hvge : ∀ (q : Fin n) (v h : Nat), (v, h) ∈ c.msgs q → ids w ≤ v := by
    intro q v h hm
    obtain ⟨p, hp⟩ := hc.vals_msgs q v h hm
    rw [← hp]
    exact hw p
  have hownid : ∀ p, p ≠ w → ∀ h, (ids p, h) ∉ c.msgs p := by
    intro p hpw h hmem
    have h1 := (hc.nonret_msgs p p h hpw hmem).1
    rw [distTo_self] at h1
    omega
  have hownid2 : ∀ p, p ≠ w → ∀ h, ((c.node p).id, h) ∉ c.msgs p := by
    intro p hpw
    rw [hc.ids_eq p]
    exact hownid p hpw
  refine ⟨?_, ?_, ?_, ?_, ?_, ?_, ?_, ?_, ?_, ?_, ?_⟩
  · intro i
    rw [stepRound_node, stepNode_id]
    exact hc.ids_eq i
  · intro i
    rw [stepRound_node, stepNode_status now _ _ (hasleep i)]
    obtain ⟨μ, hμ, -, -⟩ := hc.min_ok i
    rcases foldCompare_status now (c.msgs i) (c.node i) [] μ hμ (hrel i) with h | h | h
    · rw [h]
      exact hc.status_ok i
    · exact Or.inr (Or.inl h)
    · exact Or.inr (Or.inr h)
  · intro i
    rw [stepRound_node, stepNode_min_live now _ _ (hasleep i)]
    obtain ⟨μ, hμ, hgm, hidb⟩ := hc.min_ok i
    obtain ⟨μ2, h1, h2, h3⟩ := foldCompare_min_src now (c.msgs i) (c.node i, []) μ hμ
    refine ⟨μ2, h1, ?_, by omega⟩
    rcases h3 with rfl | ⟨hh, h3⟩
    · exact hgm
    · exact hvge i μ2 hh h3
  · intro i
    rw [stepRound_node, stepNode_status now _ _ (hasleep i),
      stepNode_leader_live now _ _ (hasleep i)]
    by_cases hiw : i = w
    · subst hiw
      have hμi : (c.node i).min = .val (ids i) := hμw
      obtain ⟨e1, e2, e3, e4⟩ := foldCompare_noAccept now (c.msgs i) (c.node i) []
        (ids i) hμi (hrel i) (fun v h hm => hvge i v h hm)
      by_cases hex : ∃ h, ((c.node i).id, h) ∈ c.msgs i
      · obtain ⟨g1, g2⟩ := e3 hex
        rw [g1, g2]
        simp
      · push_neg at hex
        obtain ⟨g1, g2⟩ := e4 hex
        rw [g1, g2]
        exact hc.leader_ok i
    · obtain ⟨μ, hμ, -, -⟩ := hc.min_ok i
      obtain ⟨u1, u2⟩ := foldCompare_untouched now (c.msgs i) (c.node i) [] μ hμ
        (hrel i) (hownid2 i hiw)
      have hlf : (c.node i).is_leader = false := by
        rcases Bool.eq_false_or_eq_true (c.node i).is_leader with h | h
        · exact absurd ((hc.leader_ok i).mp h) (hc.others_quiet i hiw)
        · exact h
      rw [u1, hlf]
      constructor
      · intro hcc
        exact absurd hcc Bool.false_ne_true
      · intro hel
        exact absurd (u2 hel) (hc.others_quiet i hiw)
  · intro q m h hmem
    rw [stepRound_msgs] at hmem
    obtain ⟨μ, hμ, -, -⟩ := hc.min_ok (rightIdx q)
    rcases stepNode_S_decomp now _ _ μ hμ (hasleep _) (hrel _) m h hmem with
      ⟨t, hmem2⟩ | ⟨⟨hh, hmem2⟩, -⟩
    · exact hc.vals_wait _ m h t hmem2
    · exact hc.vals_msgs _ m hh hmem2
  · intro q m h t hmem
    rw [stepRound_node] at hmem
    obtain ⟨μ, hμ, -, -⟩ := hc.min_ok q
    rcases stepNode_wait_decomp now _ _ μ hμ (hasleep q) (hrel q) m h t hmem with
      hmem2 | ⟨⟨hh, hmem2⟩, -, -, -⟩
    · exact hc.vals_wait q m h t hmem2
    · exact hc.vals_msgs q m hh hmem2
  · intro q p h hpw hmem
    rw [stepRound_msgs] at hmem
    obtain ⟨μ, hμ, -, -⟩ := hc.min_ok (rightIdx q)
    have hx : 1 ≤ distTo (rightIdx q) p ∧ distTo (rightIdx q) p < distTo w p := by
      rcases stepNode_S_decomp now _ _ μ hμ (hasleep _) (hrel _) (ids p) h hmem with
        ⟨t, hmem2⟩ | ⟨⟨hh, hmem2⟩, hlt⟩
      · exact hc.nonret_wait _ p h t hpw hmem2
      · obtain ⟨d1, d2⟩ := hc.nonret_msgs _ p hh hpw hmem2
        have hne : rightIdx q ≠ w := by
          intro hqq
          rw [hqq] at hμ
          have h5 : μ = ids w := by
            rw [hμw] at hμ
            injection hμ with h6
            exact h6.symm
          rw [h5] at hlt
          have := hw p
          omega
        have hdne : distTo (rightIdx q) p ≠ distTo w p := by
          intro hcc
          exact hne (distTo_right_inj _ _ _ hcc)
        exact ⟨d1, by omega⟩
    obtain ⟨hd1, hd2⟩ := hx
    have hq : q = leftIdx (rightIdx q) := (leftIdx_rightIdx q).symm
    have hdq : distTo q p = distTo (rightIdx q) p + 1 := by
      conv_lhs => rw [hq]
      rw [distTo_leftIdx _ _ (by have := distTo_lt w p; omega)]
    rw [hdq]
    omega
  · intro q p h t hpw hmem
    rw [stepRound_node] at hmem
    obtain ⟨μ, hμ, -, -⟩ := hc.min_ok q
    rcases stepNode_wait_decomp now _ _ μ hμ (hasleep q) (hrel q) (ids p) h t hmem with
      hmem2 | ⟨⟨hh, hmem2⟩, -, -, hlt⟩
    · exact hc.nonret_wait q p h t hpw hmem2
    · obtain ⟨d1, d2⟩ := hc.nonret_msgs q p hh hpw hmem2
      have hne : q ≠ w := by
        intro hqq
        rw [hqq] at hμ
        have h5 : μ = ids w := by
          rw [hμw] at hμ
          injection hμ with h6
          exact h6.symm
        rw [h5] at hlt
        have := hw p
        omega
      have hdne : distTo q p ≠ distTo w p := by
        intro hcc
        exact hne (distTo_right_inj _ _ _ hcc)
      exact ⟨d1, by omega⟩
  · intro p hpw
    rw [stepRound_node, stepNode_status now _ _ (hasleep p)]
    obtain ⟨μ, hμ, -, -⟩ := hc.min_ok p
    obtain ⟨u1, u2⟩ := foldCompare_untouched now (c.msgs p) (c.node p) [] μ hμ
      (hrel p) (hownid2 p hpw)
    intro hel
    exact absurd (u2 hel) (hc.others_quiet p hpw)
  · rw [stepRound_node, stepNode_status now _ _ (hasleep w)]
    obtain ⟨e1, e2, e3, e4⟩ := foldCompare_noAccept now (c.msgs w) (c.node w) []
      (ids w) hμw (hrel w) (fun v h hm => hvge w v h hm)
    by_cases hex : ∃ h, ((c.node w).id, h) ∈ c.msgs w
    · obtain ⟨g1, g2⟩ := e3 hex
      rw [g1]
      decide
    · push_neg at hex
      obtain ⟨g1, g2⟩ := e4 hex
      rw [g1]
      exact hc.w_not_loser
  · -- gm_state
    have hled : ∀ x : Fin n,
        msgCount (ids w) ((stepNode now (c.node x) (c.msgs x)).2) +
          waitCount (ids w) ((stepNode now (c.node x) (c.msgs x)).1.waiting) =
          waitCount (ids w)
            (((c.msgs x).foldl (compareMsg now) (c.node x, [])).1.waiting) := by
      intro x
      rw [stepNode_S_release now _ _ (hasleep x) (hrel x),
        stepNode_waiting_live now _ _ (hasleep x)]
      exact release_count now (ids w) _
    have hzero : ∀ x : Fin n, msgCount (ids w) (c.msgs x) = 0 →
        waitCount (ids w) ((c.node x).waiting) = 0 →
        msgCount (ids w) ((stepNode now (c.node x) (c.msgs x)).2) = 0 ∧
          waitCount (ids w) ((stepNode now (c.node x) (c.msgs x)).1.waiting) = 0 := by
      intro x h1 h2
      obtain ⟨μ, hμ, -, -⟩ := hc.min_ok x
      have h3 : waitCount (ids w)
          (((c.msgs x).foldl (compareMsg now) (c.node x, [])).1.waiting) = 0 :=
        foldCompare_noB now (ids w) (c.msgs x) (c.node x) [] μ hμ (hrel x) h1 h2
      have h4 := hled x
      omega
    have hstrict : ∀ x : Fin n, msgCount (ids w) (c.msgs x) = 0 →
        (∀ μ, (c.node x).min = .val μ → ids w < μ) →
        ∀ μ2, ((stepRound now c).1.node x).min = .val μ2 → ids w < μ2 := by
      intro x h0 hold μ2 hμ2
      rw [stepRound_node, stepNode_min_live now _ _ (hasleep x)] at hμ2
      obtain ⟨μ, hμ, -, -⟩ := hc.min_ok x
      obtain ⟨ν, h1, h2, h3⟩ := foldCompare_min_src now (c.msgs x) (c.node x, []) μ hμ
      have hν : ν = μ2 := by
        rw [h1] at hμ2
        injection hμ2
      subst hν
      rcases h3 with rfl | ⟨hh, h3⟩
      · exact hold _ hμ
      · have hge := hvge x ν hh h3
        have hne : ν ≠ ids w := by
          intro hcc
          rw [hcc] at h3
          exact msgCount_eq_zero h0 hh h3
        omega
    have hwquiet : msgCount (ids w) (c.msgs w) = 0 → (c.node w).status ≠ .elected →
        ((stepRound now c).1.node w).status ≠ .elected := by
      intro h0 hne
      rw [stepRound_node, stepNode_status now _ _ (hasleep w)]
      obtain ⟨u1, u2⟩ := foldCompare_untouched now (c.msgs w) (c.node w) [] (ids w) hμw
        (hrel w) (by rw [hc.ids_eq w]; exact fun h => msgCount_eq_zero h0 h)
      intro hel
      exact absurd (u2 hel) hne
    rcases hc.gm_state with ⟨helw, hfree1, hfree2⟩ | ⟨hnw, k, hk1, hkn, hcase⟩
    · left
      refine ⟨?_, ?_, ?_⟩
      · rw [stepRound_node, stepNode_status now _ _ (hasleep w)]
        obtain ⟨e1, e2, e3, e4⟩ := foldCompare_noAccept now (c.msgs w) (c.node w) []
          (ids w) hμw (hrel w) (fun v h hm => hvge w v h hm)
        by_cases hex : ∃ h, ((c.node w).id, h) ∈ c.msgs w
        · exact (e3 hex).1
        · push_neg at hex
          rw [(e4 hex).1]
          exact helw
      · intro q
        rw [stepRound_msgs]
        exact (hzero (rightIdx q) (hfree1 _) (hfree2 _)).1
      · intro q
        rw [stepRound_node]
        exact (hzero q (hfree1 q) (hfree2 q)).2
    · rcases hcase with ⟨hq1, hq0, hw0, hunv⟩ | ⟨hknm, hw1, hq0all, hw0x, hunv⟩
      · -- the copy is in an inbound queue, k hops past w
        rcases Nat.lt_or_ge k n with hklt | hkge
        · -- k < n : the copy is accepted at leftPow k w this round
          set x0 := leftPow k w with hx0
          have hdx0 : distTo x0 w = k := by
            rw [hx0]
            exact distTo_leftPow k w hklt
          have hx0w : x0 ≠ w := ne_of_distTo_pos x0 w (by omega)
          obtain ⟨μ0, hμ0, -, -⟩ := hc.min_ok x0
          have hμ0gt : ids w < μ0 := hunv x0 (by omega) μ0 hμ0
          obtain ⟨extra, ha1, ha2, ha3, ha4, ha5, ha6⟩ :=
            foldCompare_acceptOne now (ids w) (c.msgs x0) (c.node x0) [] μ0 hμ0
              (hrel x0) hμ0gt hq1 (fun v h hm => hvge x0 v h hm)
              (by rw [hc.ids_eq x0]; exact hownid x0 hx0w)
          have hfold1 : waitCount (ids w)
              (((c.msgs x0).foldl (compareMsg now) (c.node x0, [])).1.waiting) = 1 := by
            rw [ha1]
            have h1 : waitCount (ids w) ((c.node x0).waiting ++ extra) =
                waitCount (ids w) ((c.node x0).waiting) + waitCount (ids w) extra :=
              List.countP_append _ _ _
            rw [h1, hw0 x0, Nat.zero_add]
            exact ha2
          have hentry : ((ids w, 2, now) : WaitEntry) ∈
              ((c.msgs x0).foldl (compareMsg now) (c.node x0, [])).1.waiting := by
            rw [ha1]
            refine List.mem_append_right _ ?_
            have hpos : 0 < extra.countP fun e => e.1 == ids w := by
              rw [ha2]
              omega
            obtain ⟨e, he, hpe⟩ := List.countP_pos.mp hpos
            have he1 : e.1 = ids w := by simpa using hpe
            have he2 := ha3 e he he1
            rw [← he2]
            exact he
          have hl := hled x0
          rw [hfold1] at hl
          by_cases hdue : dueNow now now (ids w) = true
          · have hSmem : ((ids w, 2) : Msg) ∈ (stepNode now (c.node x0) (c.msgs x0)).2 := by
              rw [stepNode_S_release now _ _ (hasleep x0) (hrel x0), release_eq]
              exact List.mem_map.mpr ⟨(ids w, 2, now), List.mem_filter.mpr ⟨hentry, hdue⟩, rfl⟩
            have hpos := msgCount_pos_of_mem hSmem
            have hS1 : msgCount (ids w) ((stepNode now (c.node x0) (c.msgs x0)).2) = 1 ∧
                waitCount (ids w) ((stepNode now (c.node x0) (c.msgs x0)).1.waiting) = 0 := by
              omega
            right
            refine ⟨hwquiet (hq0 w (Ne.symm hx0w)) hnw, k + 1, by omega, by omega,
              Or.inl ⟨?_, ?_, ?_, ?_⟩⟩
            · rw [leftPow_succ, ← hx0, stepRound_msgs, rightIdx_leftIdx]
              exact hS1.1
            · intro q hq
              rw [stepRound_msgs]
              by_cases hrq : rightIdx q = x0
              · exfalso
                apply hq
                rw [leftPow_succ, ← hx0, ← hrq, leftIdx_rightIdx]
              · exact (hzero (rightIdx q) (hq0 _ hrq) (hw0 _)).1
            · intro q
              rw [stepRound_node]
              by_cases hqx : q = x0
              · rw [hqx]
                exact hS1.2
              · exact (hzero q (hq0 q hqx) (hw0 q)).2
            · intro q hq μ2 hμ2
              have hqx0 : q ≠ x0 := by
                intro hcc
                rw [hcc, hdx0] at hq
                omega
              exact hstrict q (hq0 q hqx0) (fun μ hμ => hunv q (by omega) μ hμ) μ2 hμ2
          · have hdue2 : dueNow now now (ids w) = false := by
              rcases Bool.eq_false_or_eq_true (dueNow now now (ids w)) with h | h
              · exact absurd h hdue
              · exact h
            have hWmem : ((ids w, 2, now) : WaitEntry) ∈
                (stepNode now (c.node x0) (c.msgs x0)).1.waiting := by
              rw [stepNode_waiting_live now _ _ (hasleep x0), release_eq]
              refine List.mem_filter.mpr ⟨hentry, ?_⟩
              rw [hdue2]
              rfl
            have hpos := waitCount_pos_of_mem hWmem
            have hS1 : msgCount (ids w) ((stepNode now (c.node x0) (c.msgs x0)).2) = 0 ∧
                waitCount (ids w) ((stepNode now (c.node x0) (c.msgs x0)).1.waiting) = 1 := by
              omega
            right
            refine ⟨hwquiet (hq0 w (Ne.symm hx0w)) hnw, k, hk1, hkn,
              Or.inr ⟨by omega, ?_, ?_, ?_, ?_⟩⟩
            · rw [← hx0, stepRound_node]
              exact hS1.2
            · intro q
              rw [stepRound_msgs]
              by_cases hrq : rightIdx q = x0
              · rw [hrq]
                exact hS1.1
              · exact (hzero (rightIdx q) (hq0 _ hrq) (hw0 _)).1
            · intro q hq
              rw [← hx0] at hq
              rw [stepRound_node]
              exact (hzero q (hq0 q hq) (hw0 q)).2
            · intro q hq μ2 hμ2
              have hqx0 : q ≠ x0 := by
                intro hcc
                rw [hcc, hdx0] at hq
                omega
              exact hstrict q (hq0 q hqx0) (fun μ hμ => hunv q (by omega) μ hμ) μ2 hμ2
        · -- k = n : the copy has come full circle back to w, which elects itself
          have hkeq : k = n := le_antisymm hkn hkge
          have hx0w : leftPow k w = w := by
            rw [hkeq]
            exact leftPow_n_eq w
          rw [hx0w] at hq1 hq0
          obtain ⟨e1, e2, e3, e4⟩ := foldCompare_noAccept now (c.msgs w) (c.node w) []
            (ids w) hμw (hrel w) (fun v h hm => hvge w v h hm)
          have hex : ∃ h, ((c.node w).id, h) ∈ c.msgs w := by
            have hpos : 0 < (c.msgs w).countP fun ms => ms.1 == ids w := by
              have hq1c : (c.msgs w).countP (fun ms => ms.1 == ids w) = 1 := hq1
              omega
            obtain ⟨ms, hms, hpms⟩ := List.countP_pos.mp hpos
            have hms1 : ms.1 = ids w := by simpa using hpms
            refine ⟨ms.2, ?_⟩
            rw [hc.ids_eq w, ← hms1]
            exact hms
          left
          refine ⟨?_, ?_, ?_⟩
          · rw [stepRound_node, stepNode_status now _ _ (hasleep w)]
            exact (e3 hex).1
          · intro q
            rw [stepRound_msgs]
            by_cases hrq : rightIdx q = w
            · rw [hrq]
              have hfw : waitCount (ids w)
                  (((c.msgs w).foldl (compareMsg now) (c.node w, [])).1.waiting) = 0 := by
                rw [e2]
                exact hw0 w
              have hl := hled w
              omega
            · exact (hzero (rightIdx q) (hq0 _ hrq) (hw0 _)).1
          · intro q
            rw [stepRound_node]
            by_cases hqx : q = w
            · rw [hqx]
              have hfw : waitCount (ids w)
                  (((c.msgs w).foldl (compareMsg now) (c.node w, [])).1.waiting) = 0 := by
                rw [e2]
                exact hw0 w
              have hl := hled w
              omega
            · exact (hzero q (hq0 q hqx) (hw0 q)).2
      · -- the copy is in a waiting queue, k hops past w
        set x0 := leftPow k w with hx0
        have hklt : k < n := by
          have := w.pos
          omega
        have hdx0 : distTo x0 w = k := by
          rw [hx0]
          exact distTo_leftPow k w hklt
        have hx0w : x0 ≠ w := ne_of_distTo_pos x0 w (by omega)
        obtain ⟨μ0, hμ0, -, -⟩ := hc.min_ok x0
        obtain ⟨extra, ha1, ha2⟩ :=
          foldCompare_waiting_val now (c.msgs x0) (c.node x0) [] μ0 hμ0 (hrel x0)
        have hextra0 : waitCount (ids w) extra = 0 := by
          apply List.countP_eq_zero.mpr
          intro e he hc2
          have he1 : e.1 = ids w := by simpa using hc2
          obtain ⟨⟨hh, hmm⟩, -, -, -⟩ := ha2 e he
          rw [he1] at hmm
          exact msgCount_eq_zero (hq0all x0) hh hmm
        have hfold1 : waitCount (ids w)
            (((c.msgs x0).foldl (compareMsg now) (c.node x0, [])).1.waiting) = 1 := by
          rw [ha1]
          have h1 : waitCount (ids w) ((c.node x0).waiting ++ extra) =
              waitCount (ids w) ((c.node x0).waiting) + waitCount (ids w) extra :=
            List.countP_append _ _ _
          rw [h1, hextra0, hw1]
        have hl := hled x0
        rw [hfold1] at hl
        have h01 : (msgCount (ids w) ((stepNode now (c.node x0) (c.msgs x0)).2) = 1 ∧
            waitCount (ids w) ((stepNode now (c.node x0) (c.msgs x0)).1.waiting) = 0) ∨
            (msgCount (ids w) ((stepNode now (c.node x0) (c.msgs x0)).2) = 0 ∧
            waitCount (ids w) ((stepNode now (c.node x0) (c.msgs x0)).1.waiting) = 1) := by
          omega
        rcases h01 with ⟨hs1, hk0⟩ | ⟨hs0, hk1w⟩
        · right
          refine ⟨hwquiet (hq0all w) hnw, k + 1, by omega, by omega,
            Or.inl ⟨?_, ?_, ?_, ?_⟩⟩
          · rw [leftPow_succ, ← hx0, stepRound_msgs, rightIdx_leftIdx]
            exact hs1
          · intro q hq
            rw [stepRound_msgs]
            by_cases hrq : rightIdx q = x0
            · exfalso
              apply hq
              rw [leftPow_succ, ← hx0, ← hrq, leftIdx_rightIdx]
            · exact (hzero (rightIdx q) (hq0all _) (hw0x _ hrq)).1
          · intro q
            rw [stepRound_node]
            by_cases hqx : q = x0
            · rw [hqx]
              exact hk0
            · exact (hzero q (hq0all q) (hw0x q hqx)).2
          · intro q hq μ2 hμ2
            exact hstrict q (hq0all q) (fun μ hμ => hunv q (by omega) μ hμ) μ2 hμ2
        · right
          refine ⟨hwquiet (hq0all w) hnw, k, hk1, hkn,
            Or.inr ⟨hknm, ?_, ?_, ?_, ?_⟩⟩
          · rw [← hx0, stepRound_node]
            exact hk1w
          · intro q
            rw [stepRound_msgs]
            by_cases hrq : rightIdx q = x0
            · rw [hrq]
              exact hs0
            · exact (hzero (rightIdx q) (hq0all _) (hw0x _ hrq)).1
          · intro q hq
            rw [← hx0] at hq
            rw [stepRound_node]
            exact (hzero q (hq0all q) (hw0x q hq)).2
          · intro q hq μ2 hμ2
            exact hstrict q (hq0all q) (fun μ hμ => hunv q (by omega) μ hμ) μ2 hμ2


theorem Inv_iter {n : Nat} (ids : Fin n → Nat) (w : Fin n)
    (hinj : Function.Injective ids) (hw : ∀ i, ids w ≤ ids i) (k : Nat) :
    Inv ids w (iterRounds ids (k + 1)) := by
  induction k with
  | zero => exact Inv_base ids w hinj hw
  | succ k ih => exact Inv_step ids w hinj hw (k + 1) _ ih

/-- If a round reports no activity, the resulting configuration has the
minimum node elected: nothing is in flight any more, so the pending case of
the invariant is impossible. -/
theorem quiescent_elected {n : Nat} (ids : Fin n → Nat) (w : Fin n)
    (now : Nat) (c : Config n) (hc : Inv ids w (stepRound now c).1)
    (hact : (stepRound now c).2 = false) :
    ((stepRound now c).1.node w).status = .elected := by
  have hSW : ∀ i : Fin n, (stepNode now (c.node i) (c.msgs i)).2 = [] ∧
      (stepNode now (c.node i) (c.msgs i)).1.waiting = [] := by
    intro i
    by_contra hcon
    have hT : (stepRound now c).2 = true := by
      rw [stepRound_activity]
      push_neg at hcon
      refine ⟨i, ?_⟩
      by_cases h1 : (stepNode now (c.node i) (c.msgs i)).2 = []
      · exact Or.inr (hcon h1)
      · exact Or.inl h1
    rw [hT] at hact
    exact absurd hact (by simp)
  rcases hc.gm_state with ⟨hel, -⟩ | ⟨-, k, hk1, hkn, hcase⟩
  · exact hel
  · exfalso
    rcases hcase with ⟨hq1, -, -, -⟩ | ⟨-, hw1, -, -, -⟩
    · rw [stepRound_msgs, (hSW _).1] at hq1
      simp [msgCount] at hq1
    · rw [stepRound_node, (hSW _).2] at hw1
      simp [waitCount] at hw1

/-- Running the scheduler from an invariant state: if it halts by quiescence,
the final state satisfies the invariant and has the minimum node elected. -/
theorem runSteps_elects {n : Nat} (ids : Fin n → Nat) (w : Fin n)
    (hinj : Function.Injective ids) (hw : ∀ i, ids w ≤ ids i) :
    ∀ (fuel now : Nat) (c : Config n), Inv ids w c →
      (runSteps fuel now c).2 = true →
      Inv ids w (runSteps fuel now c).1 ∧
        ((runSteps fuel now c).1.node w).status = .elected := by
  intro fuel
  induction fuel with
  | zero =>
    intro now c hc hhalt
    exact absurd hhalt (by simp [runSteps])
  | succ fuel ih =>
    intro now c hc hhalt
    have hstep : Inv ids w (stepRound now c).1 := Inv_step ids w hinj hw now c hc
    by_cases hact : (stepRound now c).2 = true
    · have hru : runSteps (fuel + 1) now c = runSteps fuel (now + 1) (stepRound now c).1 := by
        show (let r := stepRound now c;
          if r.2 then runSteps fuel (now + 1) r.1 else (r.1, true)) = _
        dsimp only
        rw [if_pos hact]
      rw [hru] at hhalt ⊢
      exact ih (now + 1) _ hstep hhalt
    · have hactf : (stepRound now c).2 = false := by
        rcases Bool.eq_false_or_eq_true (stepRound now c).2 with h | h
        · exact absurd h hact
        · exact h
      have hru : runSteps (fuel + 1) now c = ((stepRound now c).1, true) := by
        show (let r := stepRound now c;
          if r.2 then runSteps fuel (now + 1) r.1 else (r.1, true)) = _
        dsimp only
        rw [if_neg (by rw [hactf]; simp)]
      rw [hru]
      exact ⟨hstep, quiescent_elected ids w now c hstep hactf⟩

/-! ### Claim C1: exactly one leader, carrying the minimum identifier -/

/-- **C1.** For every ring of `N ≥ 1` nodes with pairwise-distinct identifiers
in any cyclic arrangement, if `run_election` halts by quiescence before the
round cap then exactly one node ends with `is_leader = true`, and that node's
identifier is the minimum identifier present in the ring. -/
theorem claim_C1_unique_min_leader {n : Nat} (ids : Fin n → Nat) (hn : 0 < n)
    (hinj : Function.Injective ids) (max_rounds initiator : Nat)
    (hconv : (run_election ids max_rounds initiator).2 = true) :
    ∃ i : Fin n, ((run_election ids max_rounds initiator).1.node i).is_leader = true ∧
      (∀ j : Fin n,
        ((run_election ids max_rounds initiator).1.node j).is_leader = true → j = i) ∧
      (∀ j : Fin n, ids i ≤ ids j) := by
  obtain ⟨w, -, hwmin⟩ :=
    Finset.exists_min_image Finset.univ ids ⟨⟨0, hn⟩, Finset.mem_univ _⟩
  have hwmin2 : ∀ i, ids w ≤ ids i := fun i => hwmin i (Finset.mem_univ i)
  have hre : run_election ids max_rounds initiator =
      runSteps max_rounds 0 (initConfig ids) := by
    unfold run_election
    rw [runOrdered_eq_runSteps _ (electionOrder_nodup ids initiator)
      (electionOrder_complete ids initiator)]
  rw [hre] at hconv ⊢
  rcases max_rounds with - | fuel
  · exact absurd hconv (by simp [runSteps])
  · have hact0 : (stepRound 0 (initConfig ids)).2 = true := by
      rw [stepRound_activity]
      refine ⟨⟨0, hn⟩, Or.inl ?_⟩
      rw [show (stepNode 0 ((initConfig ids).node ⟨0, hn⟩)
        ((initConfig ids).msgs ⟨0, hn⟩)).2 = [(ids ⟨0, hn⟩, 1)] from rfl]
      simp
    have hru : runSteps (fuel + 1) 0 (initConfig ids) =
        runSteps fuel 1 (stepRound 0 (initConfig ids)).1 := by
      show (let r := stepRound 0 (initConfig ids);
        if r.2 then runSteps fuel 1 r.1 else (r.1, true)) = _
      dsimp only
      rw [if_pos hact0]
    rw [hru] at hconv ⊢
    have hbase : Inv ids w (stepRound 0 (initConfig ids)).1 := Inv_base ids w hinj hwmin2
    obtain ⟨hfin, hel⟩ := runSteps_elects ids w hinj hwmin2 fuel 1 _ hbase hconv
    refine ⟨w, (hfin.leader_ok w).mpr hel, ?_, hwmin2⟩
    intro j hj
    by_contra hjw
    exact absurd ((hfin.leader_ok j).mp hj) (hfin.others_quiet j hjw)

/-- **C1 witness.** -/
theorem claim_C1_unique_min_leader_witness :
    ∃ i : Fin 1, ((run_election (fun _ : Fin 1 => 5) 100 5).1.node i).is_leader = true ∧
      (∀ j : Fin 1,
        ((run_election (fun _ : Fin 1 => 5) 100 5).1.node j).is_leader = true → j = i) ∧
      (∀ j : Fin 1, (fun _ : Fin 1 => 5) i ≤ (fun _ : Fin 1 => 5) j) :=
  claim_C1_unique_min_leader (fun _ : Fin 1 => 5) (by decide)
    (fun a b _ => Subsingleton.elim a b) 100 5 (by decide)

/-! ### Claim C6: statuses move only forward and terminal states stay -/

/-- The per-round status transitions the specification allows: no change, or
any move out of `asleep`, or a move from the intermediate statuses to the
final ones; in particular `not_elected` and `elected` never change. -/
def allowedStep (a b : Status) : Prop :=
  a = b ∨ a = .asleep ∨
    ((a = .participating ∨ a = .relay) ∧ (b = .not_elected ∨ b = .elected))

/-- **C6.** In every reachable execution over pairwise-distinct identifiers,
each node's status moves only in the direction
`asleep → {participating, relay} → {not_elected, elected}`, and once a node is
`elected` or `not_elected` no further round changes its status. -/
theorem claim_C6_status_transitions {n : Nat} (ids : Fin n → Nat)
    (hinj : Function.Injective ids) (k : Nat) (i : Fin n) :
    allowedStep ((iterRounds ids k).node i).status
      ((iterRounds ids (k + 1)).node i).status := by
  match k with
  | 0 => exact Or.inr (Or.inl rfl)
  | k + 1 =>
    obtain ⟨w, -, hwmin⟩ := Finset.exists_min_image Finset.univ ids ⟨i, Finset.mem_univ _⟩
    have hwmin2 : ∀ j, ids w ≤ ids j := fun j => hwmin j (Finset.mem_univ j)
    have hcur : Inv ids w (iterRounds ids (k + 1)) := Inv_iter ids w hinj hwmin2 k
    have hnext : Inv ids w (iterRounds ids (k + 2)) := Inv_iter ids w hinj hwmin2 (k + 1)
    set c := iterRounds ids (k + 1) with hceq
    have hnext2 : Inv ids w (stepRound (k + 1) c).1 := hnext
    have hasleep : (c.node i).status ≠ .asleep := by
      rcases hcur.status_ok i with h | h | h <;> rw [h] <;> decide
    have hrel : (c.node i).status ≠ .relay := by
      rcases hcur.status_ok i with h | h | h <;> rw [h] <;> decide
    have hstep : ((iterRounds ids (k + 2)).node i).status =
        ((stepRound (k + 1) c).1.node i).status := rfl
    rw [hstep, stepRound_node, stepNode_status (k + 1) _ _ hasleep]
    obtain ⟨μ, hμ, -, -⟩ := hcur.min_ok i
    rcases foldCompare_status (k + 1) (c.msgs i) (c.node i) [] μ hμ hrel with h | h | h
    · rw [h]
      exact Or.inl rfl
    · rw [h]
      rcases hcur.status_ok i with h1 | h1 | h1
      · exact Or.inr (Or.inr ⟨Or.inl h1, Or.inl rfl⟩)
      · rw [h1]
        exact Or.inl rfl
      · exfalso
        have hiw : i = w := by
          by_contra hiw
          exact absurd h1 (hcur.others_quiet i hiw)
        subst hiw
        have hμi : (c.node i).min = .val (ids i) := by
          obtain ⟨ν, p1, p2, p3⟩ := hcur.min_ok i
          have hν : ν = ids i := le_antisymm p3 p2
          rw [p1, hν]
        have hvge2 : ∀ (v hh : Nat), (v, hh) ∈ c.msgs i → ids i ≤ v := by
          intro v hh hm
          obtain ⟨p, hp⟩ := hcur.vals_msgs i v hh hm
          rw [← hp]
          exact hwmin2 p
        obtain ⟨e1, e2, e3, e4⟩ := foldCompare_noAccept (k + 1) (c.msgs i) (c.node i) []
          (ids i) hμi hrel (fun v hh hm => hvge2 v hh hm)
        by_cases hex : ∃ hh, ((c.node i).id, hh) ∈ c.msgs i
        · exact absurd (h.symm.trans (e3 hex).1) (by decide)
        · push_neg at hex
          exact absurd (h.symm.trans ((e4 hex).1.trans h1)) (by decide)
    · rw [h]
      rcases hcur.status_ok i with h1 | h1 | h1
      · exact Or.inr (Or.inr ⟨Or.inl h1, Or.inr rfl⟩)
      · exfalso
        have hiw : i = w := by
          by_contra hiw
          have hni : ((stepRound (k + 1) c).1.node i).status = .elected := by
            rw [stepRound_node, stepNode_status (k + 1) _ _ hasleep]
            exact h
          exact absurd hni (hnext2.others_quiet i hiw)
        rw [hiw] at h1
        exact absurd h1 hcur.w_not_loser
      · exact Or.inl h1

/-- **C6 witness.** -/
theorem claim_C6_status_transitions_witness :
    allowedStep ((iterRounds (fun _ : Fin 1 => 5) 0).node 0).status
      ((iterRounds (fun _ : Fin 1 => 5) 1).node 0).status :=
  claim_C6_status_transitions (fun _ : Fin 1 => 5)
    (fun a b _ => Subsingleton.elim a b) 0 0

end Election
